import Mathlib

set_option maxHeartbeats 1000000

namespace Harvest

/-!
Shallow embedding of the local graph staging store (`InternalDB` in
`core/tests/tests_storage/test_sql_handler.py`) and of the subgraph
synchronization engine (`GraphStorageHandler.store_subgraph` in
`core/workflows/demo_HL/graph_handler.py`).

Attribute maps (`data` columns, JSON objects) are association lists of
string pairs; `json.dumps(-, sort_keys=True)` is modelled by a stable
insertion sort on keys (`canon`), and Python's `{**a, **b}` dict merge by
`pyMerge`.  `CURRENT_TIMESTAMP` is a logical clock on the store that ticks
once per `upsert_payloads` call.
-/

abbrev Attrs := List (String × String)

/-- First-match lookup in an association list; Python `dict` lookup for the
maps produced by `json.loads`. -/
def dlookup (l : Attrs) (k : String) : Option String :=
  match l with
  | [] => none
  | kv :: rest => if kv.1 = k then some kv.2 else dlookup rest k

/-- Python dict merge `(here: a or b win as in the source)`: the result has
the keys of `a` in order, each overridden by `b` when present, followed by
the keys of `b` that are absent from `a`. -/
def pyMerge (a b : Attrs) : Attrs :=
  a.map (fun kv => (kv.1, (dlookup b kv.1).getD kv.2)) ++
    b.filter (fun kv => (dlookup a kv.1).isNone)

/-- Insert into a key-sorted association list, after any equal key
(stable). -/
def canonInsert (x : String × String) : Attrs → Attrs
  | [] => [x]
  | y :: ys => if x.1 < y.1 then x :: y :: ys else y :: canonInsert x ys

/-- Canonical (key-sorted) form of an attribute map: the model of
`json.dumps(d, sort_keys=True)` followed by `json.loads`. -/
def canon (l : Attrs) : Attrs := l.foldl (fun acc x => canonInsert x acc) []

structure Node where
  id : Nat
  node_type : String
  sub_type : String
  lookup_key : String
  data : Attrs
  created_at : Nat
  updated_at : Nat
deriving DecidableEq

structure Edge where
  from_id : Nat
  to_id : Nat
  edge_type : String
  created_at : Nat
deriving DecidableEq

structure DB where
  nodes : List Node
  edges : List Edge
  nextId : Nat
  time : Nat
deriving DecidableEq

def emptyDB : DB := ⟨[], [], 1, 0⟩

structure EdgePayload where
  to_node_type : String
  to_lookup_key : String
  edge_type : String
deriving DecidableEq

structure NodePayload where
  node_type : String
  sub_type : String
  lookup_key : String
  data : Attrs
  edges : List EdgePayload
deriving DecidableEq

/-- The `node_type = ? AND lookup_key = ?` row predicate. -/
def predKey (nt lk : String) (n : Node) : Bool :=
  decide (n.node_type = nt ∧ n.lookup_key = lk)

/-- `SELECT ... FROM nodes WHERE node_type = ? AND lookup_key = ?` (first
row in insertion order). -/
def findNode (db : DB) (nt lk : String) : Option Node :=
  db.nodes.find? (predKey nt lk)

/-- `InternalDB._get_node_id`. -/
def getNodeId (db : DB) (nt lk : String) : Option Nat :=
  (findNode db nt lk).map Node.id

/-- The row update performed by `ON CONFLICT ... DO UPDATE SET data =
excluded.data` together with the `updated_at` trigger, on the row matching
the conflict target. -/
def mergeUpd (merged : Attrs) (t : Nat) (nt lk : String) (m : Node) : Node :=
  if m.node_type = nt ∧ m.lookup_key = lk then
    { m with
      data := merged,
      updated_at := if m.data = merged then m.updated_at else t }
  else m

/-- One node-pass step of `upsert_payloads`: select the existing row by
`(node_type, lookup_key)`, merge its stored data with the incoming data
(incoming wins), then insert-or-update with the merged map. -/
def upsertNode (db : DB) (p : NodePayload) : DB :=
  match findNode db p.node_type p.lookup_key with
  | some n =>
    { db with
      nodes := db.nodes.map
        (mergeUpd (canon (pyMerge n.data p.data)) db.time p.node_type
          p.lookup_key) }
  | none =>
    { db with
      nodes := db.nodes ++
        [⟨db.nextId, p.node_type, p.sub_type, p.lookup_key, canon p.data,
          db.time, db.time⟩],
      nextId := db.nextId + 1 }

/-- Python truthiness of `if to_id:` on an `Optional[int]`. -/
def truthyId (o : Option Nat) : Bool := decide (o.getD 0 ≠ 0)

/-- `INSERT OR IGNORE INTO edges (from_id, to_id, edge_type) VALUES (?,?,?)`:
insert-if-absent on the `(from_id, to_id, edge_type)` uniqueness invariant. -/
def insertEdge (db : DB) (f t : Nat) (et : String) : DB :=
  if db.edges.any (fun e => decide (e.from_id = f ∧ e.to_id = t ∧ e.edge_type = et)) then
    db
  else
    { db with edges := db.edges ++ [⟨f, t, et, db.time⟩] }

/-- Processing of one declared edge inside the edge pass: resolve the target
by `(to_node_type, to_lookup_key)`; if it is unresolvable the edge is
skipped without error, otherwise it is inserted idempotently. -/
def edgeWrite (fid : Nat) (acc : DB) (e : EdgePayload) : DB :=
  let tid := getNodeId acc e.to_node_type e.to_lookup_key
  if truthyId tid then insertEdge acc fid (tid.getD 0) e.edge_type else acc

/-- One edge-pass step of `upsert_payloads` for a single payload: resolve the
payload's own node id, then process each declared edge. -/
def edgeStep (db : DB) (p : NodePayload) : DB :=
  match getNodeId db p.node_type p.lookup_key with
  | none => db
  | some fid => p.edges.foldl (edgeWrite fid) db

def nodePass (db : DB) (ps : List NodePayload) : DB := ps.foldl upsertNode db

def edgePass (db : DB) (ps : List NodePayload) : DB := ps.foldl edgeStep db

/-- `InternalDB.upsert_payloads` on the committed-success path: a two-pass
protocol (all node writes, then all edge writes) inside one transaction.
The store's logical clock ticks once at the start of the call. -/
def upsert_payloads (db : DB) (ps : List NodePayload) : DB :=
  let db1 : DB := { db with time := db.time + 1 }
  edgePass (nodePass db1 ps) ps

/-- Natural key of a node row. -/
def keyOf (n : Node) : String × String := (n.node_type, n.lookup_key)

/-- Uniqueness triple of an edge row. -/
def tripleOf (e : Edge) : Nat × Nat × String := (e.from_id, e.to_id, e.edge_type)

/-- Well-formedness of a store state: the invariants the SQLite schema
enforces (`UNIQUE(node_type, lookup_key)`, `INTEGER PRIMARY KEY
AUTOINCREMENT`, `UNIQUE(from_id, to_id, edge_type)`, foreign keys on edge
endpoints) plus boundedness of the logical clock. -/
def WF (db : DB) : Prop :=
  (db.nodes.map keyOf).Nodup ∧
  (db.nodes.map Node.id).Nodup ∧
  (∀ n ∈ db.nodes, n.id < db.nextId) ∧
  (∀ n ∈ db.nodes, 1 ≤ n.id) ∧
  1 ≤ db.nextId ∧
  (∀ n ∈ db.nodes, n.created_at ≤ db.time ∧ n.updated_at ≤ db.time) ∧
  (db.edges.map tripleOf).Nodup ∧
  (∀ e ∈ db.edges,
    (∃ n ∈ db.nodes, n.id = e.from_id) ∧ (∃ n ∈ db.nodes, n.id = e.to_id))

instance (db : DB) : Decidable (WF db) := by
  unfold WF; infer_instance

/-!
Transactional run of `upsert_payloads` with fault injection.  Every write
statement (the node `INSERT ... ON CONFLICT` and the edge `INSERT OR
IGNORE`, the two statements the source routes through
`_execute_with_retry`) is numbered in execution order; `fail i = true`
means the `i`-th write raises an unrecoverable error.  The source wraps
both passes in one `try` on a single uncommitted connection, calls
`conn.commit()` only after both passes, and on any exception calls
`conn.rollback()` and re-raises — so an error before the single commit
point leaves the committed store untouched.
-/

/-- Node-pass step with fault injection: the write for this payload is
operation `st.2`. -/
def nodeStepTx (fail : Nat → Bool) (st : DB × Nat) (p : NodePayload) :
    Except Nat (DB × Nat) :=
  if fail st.2 then Except.error st.2 else Except.ok (upsertNode st.1 p, st.2 + 1)

/-- Edge-pass step with fault injection for one declared edge of a resolved
payload. -/
def edgeWriteTx (fail : Nat → Bool) (fid : Nat) (st : DB × Nat)
    (e : EdgePayload) : Except Nat (DB × Nat) :=
  let tid := getNodeId st.1 e.to_node_type e.to_lookup_key
  if truthyId tid then
    if fail st.2 then Except.error st.2
    else Except.ok (insertEdge st.1 fid (tid.getD 0) e.edge_type, st.2 + 1)
  else Except.ok st

/-- Edge-pass step with fault injection for one payload. -/
def edgeStepTx (fail : Nat → Bool) (st : DB × Nat) (p : NodePayload) :
    Except Nat (DB × Nat) :=
  match getNodeId st.1 p.node_type p.lookup_key with
  | none => Except.ok st
  | some fid => p.edges.foldlM (edgeWriteTx fail fid) st

/-- `InternalDB.upsert_payloads` as a transaction with fault injection:
`Except.error i` models the exception raised by write `i` propagating out of
the `try` block after `conn.rollback()`. -/
def upsertPayloadsTx (db : DB) (ps : List NodePayload) (fail : Nat → Bool) :
    Except Nat DB := do
  let db1 : DB := { db with time := db.time + 1 }
  let st1 ← ps.foldlM (nodeStepTx fail) (db1, 0)
  let st2 ← ps.foldlM (edgeStepTx fail) st1
  pure st2.1

/-- The committed state of the store after a transactional call: on success
the transaction's result is committed, on an error the rollback leaves the
previously committed state in place. -/
def committedAfter (db : DB) (ps : List NodePayload) (fail : Nat → Bool) : DB :=
  match upsertPayloadsTx db ps fail with
  | Except.ok db' => db'
  | Except.error _ => db

/-- The all-writes-succeed oracle. -/
def noFail : Nat → Bool := fun _ => false

/-! ### Lemmas about attribute-map lookup, merge and canonicalization -/

/-- Left-biased choice on optional values. -/
def orOpt (a b : Option String) : Option String :=
  match a with
  | some v => some v
  | none => b

theorem dlookup_append (l₁ l₂ : Attrs) (k : String) :
    dlookup (l₁ ++ l₂) k = orOpt (dlookup l₁ k) (dlookup l₂ k) := by
  induction l₁ with
  | nil => simp [dlookup, orOpt]
  | cons kv rest ih =>
    by_cases h : kv.1 = k
    · simp [dlookup, h, orOpt]
    · simp [dlookup, h, ih]

theorem dlookup_mapPart (a b : Attrs) (k : String) :
    dlookup (a.map (fun kv => (kv.1, (dlookup b kv.1).getD kv.2))) k =
      (dlookup a k).map (fun v => (dlookup b k).getD v) := by
  induction a with
  | nil => simp [dlookup]
  | cons kv rest ih =>
    by_cases h : kv.1 = k
    · simp [dlookup, h]
    · simp [dlookup, h, ih]

theorem dlookup_filterPart (a b : Attrs) (k : String) :
    dlookup (b.filter (fun kv => (dlookup a kv.1).isNone)) k =
      if (dlookup a k).isNone then dlookup b k else none := by
  induction b with
  | nil => simp [dlookup]
  | cons kv rest ih =>
    by_cases h : kv.1 = k
    · subst h
      by_cases ha : (dlookup a kv.1).isNone
      · simp [List.filter_cons, ha, dlookup]
      · simp [List.filter_cons, ha, dlookup, ih]
    · by_cases ha : (dlookup a kv.1).isNone
      · simp [List.filter_cons, ha, dlookup, h, ih]
      · simp [List.filter_cons, ha, dlookup, h, ih]

/-- The Python dict merge looks up as: incoming (`b`) wins on every key it
holds, every other key keeps the stored (`a`) value. -/
theorem dlookup_pyMerge (a b : Attrs) (k : String) :
    dlookup (pyMerge a b) k = orOpt (dlookup b k) (dlookup a k) := by
  unfold pyMerge
  rw [dlookup_append, dlookup_mapPart, dlookup_filterPart]
  cases ha : dlookup a k <;> cases hb : dlookup b k <;> simp [orOpt, ha, hb]

def KeySorted (l : Attrs) : Prop := l.Pairwise (fun x y => x.1 ≤ y.1)

def filterKey (k : String) (l : Attrs) : Attrs :=
  l.filter (fun kv => decide (kv.1 = k))

theorem dlookup_eq_filterKey (l : Attrs) (k : String) :
    dlookup l k = (filterKey k l).head?.map Prod.snd := by
  induction l with
  | nil => simp [dlookup, filterKey]
  | cons kv rest ih =>
    by_cases h : kv.1 = k
    · simp [dlookup, filterKey, List.filter_cons, h]
    · simp [dlookup, filterKey, List.filter_cons, h, ih]

theorem mem_canonInsert (x z : String × String) (l : Attrs) :
    z ∈ canonInsert x l ↔ z = x ∨ z ∈ l := by
  induction l with
  | nil => simp [canonInsert]
  | cons y ys ih =>
    unfold canonInsert
    by_cases h : x.1 < y.1
    · rw [if_pos h]
      simp [List.mem_cons]
    · rw [if_neg h]
      simp only [List.mem_cons, ih]
      tauto

theorem keySorted_canonInsert (x : String × String) (l : Attrs)
    (h : KeySorted l) : KeySorted (canonInsert x l) := by
  induction l with
  | nil => simp [canonInsert, KeySorted]
  | cons y ys ih =>
    rcases List.pairwise_cons.mp h with ⟨hy, hys⟩
    unfold canonInsert
    by_cases hlt : x.1 < y.1
    · rw [if_pos hlt]
      refine List.pairwise_cons.mpr ⟨?_, h⟩
      intro z hz
      rcases List.mem_cons.mp hz with hz | hz
      · subst hz; exact le_of_lt hlt
      · exact le_trans (le_of_lt hlt) (hy z hz)
    · rw [if_neg hlt]
      refine List.pairwise_cons.mpr ⟨?_, ih hys⟩
      intro z hz
      rcases (mem_canonInsert x z ys).mp hz with hz | hz
      · subst hz; exact le_of_not_lt hlt
      · exact hy z hz

theorem filterKey_canonInsert_ne (x : String × String) (l : Attrs)
    (k : String) (h : x.1 ≠ k) :
    filterKey k (canonInsert x l) = filterKey k l := by
  induction l with
  | nil => simp [canonInsert, filterKey, List.filter_cons, h]
  | cons y ys ih =>
    unfold canonInsert
    by_cases hlt : x.1 < y.1
    · rw [if_pos hlt]
      simp [filterKey, List.filter_cons, h]
    · rw [if_neg hlt]
      simp only [filterKey, List.filter_cons] at ih ⊢
      by_cases hy : y.1 = k
      · simp [hy, ih]
      · simp [hy, ih]

theorem filterKey_canonInsert_eq (x : String × String) (l : Attrs)
    (k : String) (hs : KeySorted l) (hk : x.1 = k) :
    filterKey k (canonInsert x l) = filterKey k l ++ [x] := by
  induction l with
  | nil => simp [canonInsert, filterKey, List.filter_cons, hk]
  | cons y ys ih =>
    rcases List.pairwise_cons.mp hs with ⟨hy, hys⟩
    unfold canonInsert
    by_cases hlt : x.1 < y.1
    · have hnil : filterKey k (y :: ys) = [] := by
        refine List.filter_eq_nil_iff.mpr ?_
        intro z hz
        have hzk : k < z.1 := by
          rcases List.mem_cons.mp hz with hz | hz
          · subst hz; rw [← hk]; exact hlt
          · exact lt_of_lt_of_le (hk ▸ hlt) (hy z hz)
        simp [ne_of_gt hzk]
      rw [if_pos hlt]
      have hx : filterKey k (x :: y :: ys) = x :: filterKey k (y :: ys) := by
        simp [filterKey, List.filter_cons, hk]
      rw [hx, hnil]
      simp

    · rw [if_neg hlt]
      simp only [filterKey, List.filter_cons] at ih ⊢
      by_cases hyk : y.1 = k
      · simp [hyk, ih hys]
      · simp [hyk, ih hys]

theorem keySorted_canon_aux (l acc : Attrs) (h : KeySorted acc) :
    KeySorted (l.foldl (fun a x => canonInsert x a) acc) := by
  induction l generalizing acc with
  | nil => exact h
  | cons x xs ih => exact ih (canonInsert x acc) (keySorted_canonInsert x acc h)

theorem filterKey_canon_aux (l acc : Attrs) (k : String) (h : KeySorted acc) :
    filterKey k (l.foldl (fun a x => canonInsert x a) acc) =
      filterKey k acc ++ filterKey k l := by
  induction l generalizing acc with
  | nil => simp [filterKey]
  | cons x xs ih =>
    have hstep := ih (canonInsert x acc) (keySorted_canonInsert x acc h)
    by_cases hk : x.1 = k
    · rw [List.foldl_cons, hstep, filterKey_canonInsert_eq x acc k h hk]
      simp [filterKey, List.filter_cons, hk]
    · rw [List.foldl_cons, hstep, filterKey_canonInsert_ne x acc k hk]
      simp [filterKey, List.filter_cons, hk]

theorem filterKey_canon (l : Attrs) (k : String) :
    filterKey k (canon l) = filterKey k l := by
  unfold canon
  rw [filterKey_canon_aux l [] k (by simp [KeySorted])]
  simp [filterKey]

/-- Canonicalization (the model of `json.dumps(-, sort_keys=True)`)
preserves lookups. -/
theorem dlookup_canon (l : Attrs) (k : String) :
    dlookup (canon l) k = dlookup l k := by
  rw [dlookup_eq_filterKey, dlookup_eq_filterKey, filterKey_canon]

theorem orOpt_self (a : Option String) : orOpt a a = a := by
  cases a <;> rfl

/-! ### Lemmas about the node pass -/

theorem predKey_iff (nt lk : String) (n : Node) :
    predKey nt lk n = true ↔ keyOf n = (nt, lk) := by
  simp [predKey, keyOf, Prod.ext_iff]

theorem predKey_mergeUpd (merged : Attrs) (t : Nat) (nt lk nt' lk' : String)
    (m : Node) :
    predKey nt' lk' (mergeUpd merged t nt lk m) = predKey nt' lk' m := by
  unfold mergeUpd
  split <;> simp [predKey]

theorem keyOf_mergeUpd (merged : Attrs) (t : Nat) (nt lk : String) (m : Node) :
    keyOf (mergeUpd merged t nt lk m) = keyOf m := by
  unfold mergeUpd
  split <;> simp [keyOf]

theorem find?_map_pred {α : Type} (f : α → α) (pred : α → Bool)
    (hf : ∀ m, pred (f m) = pred m) (l : List α) :
    (l.map f).find? pred = (l.find? pred).map f := by
  induction l with
  | nil => simp
  | cons a as ih =>
    cases h : pred a
    · simp [List.find?_cons, hf, h, ih]
    · simp [List.find?_cons, hf, h]

theorem filter_predKey_singleton (l : List Node) (nt lk : String) (n : Node)
    (hnd : (l.map keyOf).Nodup) (hfind : l.find? (predKey nt lk) = some n) :
    l.filter (predKey nt lk) = [n] := by
  induction l with
  | nil => simp at hfind
  | cons a as ih =>
    rcases List.pairwise_cons.mp hnd with ⟨ha, has⟩
    cases h : predKey nt lk a
    · rw [List.find?_cons, h] at hfind
      simp [List.filter_cons, h]
      exact ih has hfind
    · rw [List.find?_cons, h] at hfind
      have han : a = n := by simpa using hfind
      subst han
      have hnil : as.filter (predKey nt lk) = [] := by
        refine List.filter_eq_nil_iff.mpr ?_
        intro m hm hpm
        have h1 : keyOf m = (nt, lk) := (predKey_iff nt lk m).mp hpm
        have h2 : keyOf a = (nt, lk) := (predKey_iff nt lk a).mp h
        exact ha (keyOf m) (List.mem_map_of_mem keyOf hm) (by rw [h1, ← h2])
      simp [List.filter_cons, h, hnil]

/-- The node pass on an already-present `(node_type, lookup_key)`: the
conflict row is rewritten with the canonicalized merge of stored and
incoming data, and the first matching row of the result is that rewrite. -/
theorem upsertNode_found (db : DB) (p : NodePayload) (n : Node)
    (h : findNode db p.node_type p.lookup_key = some n) :
    (upsertNode db p).nodes =
      db.nodes.map
        (mergeUpd (canon (pyMerge n.data p.data)) db.time p.node_type
          p.lookup_key) ∧
    findNode (upsertNode db p) p.node_type p.lookup_key =
      some (mergeUpd (canon (pyMerge n.data p.data)) db.time p.node_type
        p.lookup_key n) := by
  constructor
  · unfold upsertNode
    rw [h]
  · unfold findNode
    unfold upsertNode
    rw [h]
    simp only
    rw [find?_map_pred _ _ (predKey_mergeUpd _ _ _ _ _ _)]
    unfold findNode at h
    rw [h]
    rfl

theorem mergeUpd_self (merged : Attrs) (t : Nat) (nt lk : String) (n : Node)
    (h : predKey nt lk n = true) :
    mergeUpd merged t nt lk n =
      { n with
        data := merged,
        updated_at := if n.data = merged then n.updated_at else t } := by
  unfold mergeUpd
  rw [if_pos (by simpa [predKey] using h)]

theorem insertEdge_nodes (db : DB) (f t : Nat) (et : String) :
    (insertEdge db f t et).nodes = db.nodes := by
  unfold insertEdge
  split <;> rfl

theorem edgeWrite_nodes (fid : Nat) (acc : DB) (e : EdgePayload) :
    (edgeWrite fid acc e).nodes = acc.nodes := by
  unfold edgeWrite
  dsimp only
  split
  · exact insertEdge_nodes _ _ _ _
  · rfl

theorem edgeFold_nodes (fid : Nat) (es : List EdgePayload) (acc : DB) :
    (es.foldl (edgeWrite fid) acc).nodes = acc.nodes := by
  induction es generalizing acc with
  | nil => rfl
  | cons e es ih => rw [List.foldl_cons, ih, edgeWrite_nodes]

theorem edgeStep_nodes (db : DB) (p : NodePayload) :
    (edgeStep db p).nodes = db.nodes := by
  unfold edgeStep
  cases h : getNodeId db p.node_type p.lookup_key
  · rfl
  · exact edgeFold_nodes _ _ _

theorem edgePass_nodes (db : DB) (ps : List NodePayload) :
    (edgePass db ps).nodes = db.nodes := by
  unfold edgePass
  induction ps generalizing db with
  | nil => rfl
  | cons p ps ih => rw [List.foldl_cons, ih, edgeStep_nodes]

theorem findNode_congr (db db' : DB) (nt lk : String)
    (h : db.nodes = db'.nodes) : findNode db nt lk = findNode db' nt lk := by
  unfold findNode
  rw [h]

/-- Same fields, time only bumped: lookups agree. -/
theorem findNode_timeBump (db : DB) (nt lk : String) :
    findNode { db with time := db.time + 1 } nt lk = findNode db nt lk := rfl

theorem find?_append_none {α : Type} (p : α → Bool) (l₁ l₂ : List α)
    (h : l₁.find? p = none) : (l₁ ++ l₂).find? p = l₂.find? p := by
  induction l₁ with
  | nil => rfl
  | cons a as ih =>
    rw [List.find?_cons] at h
    cases hp : p a
    · rw [hp] at h
      rw [List.cons_append, List.find?_cons, hp]
      exact ih h
    · rw [hp] at h
      simp at h

theorem mapKeys_mergeUpd (l : List Node) (merged : Attrs) (t : Nat)
    (nt lk : String) :
    (l.map (mergeUpd merged t nt lk)).map keyOf = l.map keyOf := by
  rw [List.map_map]
  exact List.map_congr_left (fun a _ => keyOf_mergeUpd merged t nt lk a)

/-- `upsert_payloads` with a single payload whose key is already present:
the committed nodes are the original rows with the conflict row rewritten;
edges are handled by the separate edge pass. -/
theorem upsert_single_found (db : DB) (p : NodePayload) (n : Node)
    (h : findNode db p.node_type p.lookup_key = some n) :
    (upsert_payloads db [p]).nodes =
      db.nodes.map
        (mergeUpd (canon (pyMerge n.data p.data)) (db.time + 1) p.node_type
          p.lookup_key) ∧
    findNode (upsert_payloads db [p]) p.node_type p.lookup_key =
      some (mergeUpd (canon (pyMerge n.data p.data)) (db.time + 1)
        p.node_type p.lookup_key n) := by
  have h1 : findNode { db with time := db.time + 1 } p.node_type
      p.lookup_key = some n := h
  have h2 := upsertNode_found { db with time := db.time + 1 } p n h1
  have hn : nodePass { db with time := db.time + 1 } [p] =
      upsertNode { db with time := db.time + 1 } p := by
    simp [nodePass]
  constructor
  · show (edgePass (nodePass { db with time := db.time + 1 } [p]) [p]).nodes = _
    rw [edgePass_nodes, hn, h2.1]
  · show findNode (edgePass (nodePass { db with time := db.time + 1 } [p]) [p])
        p.node_type p.lookup_key = _
    rw [findNode_congr _ _ _ _ (edgePass_nodes _ _), hn, h2.2]

/-- `upsert_payloads` with a single payload whose key is absent: a fresh row
is appended with the canonicalized incoming data and the next surrogate id,
and both timestamps set to the current clock. -/
theorem upsert_single_new (db : DB) (p : NodePayload)
    (h : findNode db p.node_type p.lookup_key = none) :
    (upsert_payloads db [p]).nodes = db.nodes ++
      [⟨db.nextId, p.node_type, p.sub_type, p.lookup_key, canon p.data,
        db.time + 1, db.time + 1⟩] ∧
    findNode (upsert_payloads db [p]) p.node_type p.lookup_key =
      some ⟨db.nextId, p.node_type, p.sub_type, p.lookup_key, canon p.data,
        db.time + 1, db.time + 1⟩ := by
  have h1 : findNode { db with time := db.time + 1 } p.node_type
      p.lookup_key = none := h
  have hn : nodePass { db with time := db.time + 1 } [p] =
      upsertNode { db with time := db.time + 1 } p := by
    simp [nodePass]
  have hup : (upsertNode { db with time := db.time + 1 } p).nodes =
      db.nodes ++
        [⟨db.nextId, p.node_type, p.sub_type, p.lookup_key, canon p.data,
          db.time + 1, db.time + 1⟩] := by
    unfold upsertNode
    rw [h1]
  constructor
  · show (edgePass (nodePass { db with time := db.time + 1 } [p]) [p]).nodes = _
    rw [edgePass_nodes, hn, hup]
  · show findNode (edgePass (nodePass { db with time := db.time + 1 } [p]) [p])
        p.node_type p.lookup_key = _
    rw [findNode_congr _ _ _ _ (edgePass_nodes _ _)]
    unfold findNode
    rw [hn, hup, find?_append_none _ _ _ h]
    rw [List.find?_cons]
    have : predKey p.node_type p.lookup_key
        ⟨db.nextId, p.node_type, p.sub_type, p.lookup_key, canon p.data,
          db.time + 1, db.time + 1⟩ = true := by
      simp [predKey]
    rw [this]

/-- Claim C1: when `(node_type, lookup_key)` already names a stored node,
`upsert_payloads` replaces that node's data with the shallow merge of stored
and incoming maps — incoming wins on every colliding key, keys absent from
the incoming map keep their stored value — and exactly one node with that
key remains; submitting the same payload twice from an absent key leaves
exactly one node whose data is the union-merge of both submissions. -/
theorem C1_upsert_merge (db : DB) (p : NodePayload)
    (hnd : (db.nodes.map keyOf).Nodup) :
    (∀ n, findNode db p.node_type p.lookup_key = some n →
      ∃ n', findNode (upsert_payloads db [p]) p.node_type p.lookup_key =
          some n' ∧
        n'.data = canon (pyMerge n.data p.data) ∧
        (∀ k, dlookup n'.data k =
          orOpt (dlookup p.data k) (dlookup n.data k)) ∧
        ((upsert_payloads db [p]).nodes.filter
          (predKey p.node_type p.lookup_key)).length = 1) ∧
    (findNode db p.node_type p.lookup_key = none →
      ∃ n', findNode (upsert_payloads (upsert_payloads db [p]) [p])
          p.node_type p.lookup_key = some n' ∧
        ((upsert_payloads (upsert_payloads db [p]) [p]).nodes.filter
          (predKey p.node_type p.lookup_key)).length = 1 ∧
        (∀ k, dlookup n'.data k = dlookup p.data k)) := by
  constructor
  · intro n h
    obtain ⟨hns, hfind⟩ := upsert_single_found db p n h
    have hpk : predKey p.node_type p.lookup_key n = true := List.find?_some h
    have hnd' : ((upsert_payloads db [p]).nodes.map keyOf).Nodup := by
      rw [hns, mapKeys_mergeUpd]
      exact hnd
    refine ⟨_, hfind, ?_, ?_, ?_⟩
    · rw [mergeUpd_self _ _ _ _ _ hpk]
    · intro k
      rw [mergeUpd_self _ _ _ _ _ hpk]
      show dlookup (canon (pyMerge n.data p.data)) k = _
      rw [dlookup_canon, dlookup_pyMerge]
    · rw [filter_predKey_singleton _ _ _ _ hnd' hfind]
      rfl
  · intro h
    obtain ⟨hns1, hfind1⟩ := upsert_single_new db p h
    set fresh : Node :=
      ⟨db.nextId, p.node_type, p.sub_type, p.lookup_key, canon p.data,
        db.time + 1, db.time + 1⟩ with hfreshdef
    obtain ⟨hns2, hfind2⟩ :=
      upsert_single_found (upsert_payloads db [p]) p fresh hfind1
    have hpk : predKey p.node_type p.lookup_key fresh = true := by
      simp [predKey, hfreshdef]
    have hnd1 : ((upsert_payloads db [p]).nodes.map keyOf).Nodup := by
      rw [hns1, List.map_append]
      rw [List.nodup_append]
      refine ⟨hnd, by simp, ?_⟩
      intro x hx
      simp only [List.map_cons, List.map_nil, List.mem_singleton]
      intro hxk
      have hall := List.find?_eq_none.mp h
      rw [List.mem_map] at hx
      obtain ⟨m, hm, hxm⟩ := hx
      have : ¬ predKey p.node_type p.lookup_key m = true := hall m hm
      rw [predKey_iff] at this
      apply this
      rw [hxm, hxk]
      rfl
    have hnd2 : ((upsert_payloads (upsert_payloads db [p]) [p]).nodes.map
        keyOf).Nodup := by
      rw [hns2, mapKeys_mergeUpd]
      exact hnd1
    refine ⟨_, hfind2, ?_, ?_⟩
    · rw [filter_predKey_singleton _ _ _ _ hnd2 hfind2]
      rfl
    · intro k
      rw [mergeUpd_self _ _ _ _ _ hpk]
      show dlookup (canon (pyMerge fresh.data p.data)) k = _
      rw [dlookup_canon, dlookup_pyMerge]
      show orOpt (dlookup p.data k) (dlookup (canon p.data) k) = _
      rw [dlookup_canon, orOpt_self]

/-- Claim C8: `updated_at` advances exactly when the stored data map
actually changes; `created_at` never changes on re-upsert. -/
theorem C8_updated_at (db : DB) (p : NodePayload) (n : Node) (hwf : WF db)
    (h : findNode db p.node_type p.lookup_key = some n) :
    ∃ n', findNode (upsert_payloads db [p]) p.node_type p.lookup_key =
        some n' ∧
      n'.created_at = n.created_at ∧
      (n'.data = n.data → n'.updated_at = n.updated_at) ∧
      (n'.data ≠ n.data → n.updated_at < n'.updated_at) := by
  obtain ⟨-, hfind⟩ := upsert_single_found db p n h
  have hpk : predKey p.node_type p.lookup_key n = true := List.find?_some h
  rw [mergeUpd_self _ _ _ _ _ hpk] at hfind
  refine ⟨_, hfind, rfl, ?_, ?_⟩
  · intro hdata
    show (if n.data = canon (pyMerge n.data p.data) then n.updated_at
      else db.time + 1) = n.updated_at
    have : n.data = canon (pyMerge n.data p.data) := by
      exact hdata.symm
    rw [if_pos this]
  · intro hdata
    show n.updated_at <
      (if n.data = canon (pyMerge n.data p.data) then n.updated_at
        else db.time + 1)
    have hne : ¬ n.data = canon (pyMerge n.data p.data) := fun hc => hdata hc.symm
    rw [if_neg hne]
    have hmem : n ∈ db.nodes := List.mem_of_find?_eq_some h
    obtain ⟨-, -, -, -, -, htimes, -, -⟩ := hwf
    exact Nat.lt_succ_of_le (htimes n hmem).2

/-! ### Concrete store used by the witnesses -/

def nW : Node := ⟨1, "T", "S", "a", [("x", "1"), ("z", "9")], 0, 0⟩

def dbW : DB := ⟨[nW], [], 2, 0⟩

def pW : NodePayload := ⟨"T", "S", "a", [("x", "2"), ("y", "3")], []⟩

theorem C1_upsert_merge_witness :
    (∀ n, findNode dbW pW.node_type pW.lookup_key = some n →
      ∃ n', findNode (upsert_payloads dbW [pW]) pW.node_type pW.lookup_key =
          some n' ∧
        n'.data = canon (pyMerge n.data pW.data) ∧
        (∀ k, dlookup n'.data k =
          orOpt (dlookup pW.data k) (dlookup n.data k)) ∧
        ((upsert_payloads dbW [pW]).nodes.filter
          (predKey pW.node_type pW.lookup_key)).length = 1) ∧
    (findNode dbW pW.node_type pW.lookup_key = none →
      ∃ n', findNode (upsert_payloads (upsert_payloads dbW [pW]) [pW])
          pW.node_type pW.lookup_key = some n' ∧
        ((upsert_payloads (upsert_payloads dbW [pW]) [pW]).nodes.filter
          (predKey pW.node_type pW.lookup_key)).length = 1 ∧
        (∀ k, dlookup n'.data k = dlookup pW.data k)) :=
  C1_upsert_merge dbW pW (by decide)

theorem C8_updated_at_witness :
    ∃ n', findNode (upsert_payloads dbW [pW]) pW.node_type pW.lookup_key =
        some n' ∧
      n'.created_at = nW.created_at ∧
      (n'.data = nW.data → n'.updated_at = nW.updated_at) ∧
      (n'.data ≠ nW.data → nW.updated_at < n'.updated_at) :=
  C8_updated_at dbW pW nW (by decide) (by decide)

/-! ### Lemmas about the edge pass and the edge-uniqueness invariant -/

theorem upsertNode_edges (db : DB) (p : NodePayload) :
    (upsertNode db p).edges = db.edges := by
  unfold upsertNode
  cases findNode db p.node_type p.lookup_key <;> rfl

theorem nodePass_edges (db : DB) (ps : List NodePayload) :
    (nodePass db ps).edges = db.edges := by
  unfold nodePass
  induction ps generalizing db with
  | nil => rfl
  | cons p ps ih => rw [List.foldl_cons, ih, upsertNode_edges]

theorem insertEdge_nodupTriples (db : DB) (f t : Nat) (et : String)
    (h : (db.edges.map tripleOf).Nodup) :
    ((insertEdge db f t et).edges.map tripleOf).Nodup := by
  unfold insertEdge
  split
  · exact h
  · next habs =>
    simp only [List.map_append, List.map_cons, List.map_nil]
    rw [List.nodup_append]
    refine ⟨h, by simp, ?_⟩
    intro x hx
    simp only [List.mem_singleton]
    intro hxk
    rw [List.mem_map] at hx
    obtain ⟨e, he, hxe⟩ := hx
    rw [List.any_eq_true] at habs
    apply habs
    refine ⟨e, he, ?_⟩
    have : tripleOf e = (f, t, et) := by rw [hxe, hxk]; rfl
    simp only [tripleOf, Prod.mk.injEq] at this
    simp [this.1, this.2.1, this.2.2]

theorem insertEdge_mem_triples (db : DB) (f t : Nat) (et : String)
    (x : Nat × Nat × String) (h : x ∈ db.edges.map tripleOf) :
    x ∈ (insertEdge db f t et).edges.map tripleOf := by
  unfold insertEdge
  split
  · exact h
  · simp only [List.map_append, List.mem_append]
    exact Or.inl h

theorem edgeWrite_nodupTriples (fid : Nat) (acc : DB) (e : EdgePayload)
    (h : (acc.edges.map tripleOf).Nodup) :
    ((edgeWrite fid acc e).edges.map tripleOf).Nodup := by
  unfold edgeWrite
  dsimp only
  split
  · exact insertEdge_nodupTriples _ _ _ _ h
  · exact h

theorem edgeWrite_mem_triples (fid : Nat) (acc : DB) (e : EdgePayload)
    (x : Nat × Nat × String) (h : x ∈ acc.edges.map tripleOf) :
    x ∈ (edgeWrite fid acc e).edges.map tripleOf := by
  unfold edgeWrite
  dsimp only
  split
  · exact insertEdge_mem_triples _ _ _ _ _ h
  · exact h

theorem edgeFold_nodupTriples (fid : Nat) (es : List EdgePayload) (acc : DB)
    (h : (acc.edges.map tripleOf).Nodup) :
    ((es.foldl (edgeWrite fid) acc).edges.map tripleOf).Nodup := by
  induction es generalizing acc with
  | nil => exact h
  | cons e es ih =>
    rw [List.foldl_cons]
    exact ih (edgeWrite fid acc e) (edgeWrite_nodupTriples fid acc e h)

theorem edgeFold_mem_triples (fid : Nat) (es : List EdgePayload) (acc : DB)
    (x : Nat × Nat × String) (h : x ∈ acc.edges.map tripleOf) :
    x ∈ ((es.foldl (edgeWrite fid) acc).edges.map tripleOf) := by
  induction es generalizing acc with
  | nil => exact h
  | cons e es ih =>
    rw [List.foldl_cons]
    exact ih (edgeWrite fid acc e) (edgeWrite_mem_triples fid acc e x h)

theorem edgeStep_nodupTriples (db : DB) (p : NodePayload)
    (h : (db.edges.map tripleOf).Nodup) :
    ((edgeStep db p).edges.map tripleOf).Nodup := by
  unfold edgeStep
  cases getNodeId db p.node_type p.lookup_key with
  | none => exact h
  | some fid => exact edgeFold_nodupTriples fid p.edges db h

theorem edgeStep_mem_triples (db : DB) (p : NodePayload)
    (x : Nat × Nat × String) (h : x ∈ db.edges.map tripleOf) :
    x ∈ (edgeStep db p).edges.map tripleOf := by
  unfold edgeStep
  cases getNodeId db p.node_type p.lookup_key with
  | none => exact h
  | some fid => exact edgeFold_mem_triples fid p.edges db x h

theorem edgePass_nodupTriples (db : DB) (ps : List NodePayload)
    (h : (db.edges.map tripleOf).Nodup) :
    ((edgePass db ps).edges.map tripleOf).Nodup := by
  unfold edgePass
  induction ps generalizing db with
  | nil => exact h
  | cons p ps ih =>
    rw [List.foldl_cons]
    exact ih (edgeStep db p) (edgeStep_nodupTriples db p h)

theorem edgePass_mem_triples (db : DB) (ps : List NodePayload)
    (x : Nat × Nat × String) (h : x ∈ db.edges.map tripleOf) :
    x ∈ (edgePass db ps).edges.map tripleOf := by
  unfold edgePass
  induction ps generalizing db with
  | nil => exact h
  | cons p ps ih =>
    rw [List.foldl_cons]
    exact ih (edgeStep db p) (edgeStep_mem_triples db p x h)

theorem upsert_nodupTriples (db : DB) (ps : List NodePayload)
    (h : (db.edges.map tripleOf).Nodup) :
    ((upsert_payloads db ps).edges.map tripleOf).Nodup := by
  unfold upsert_payloads
  apply edgePass_nodupTriples
  rw [nodePass_edges]
  exact h

theorem upsert_mem_triples (db : DB) (ps : List NodePayload)
    (x : Nat × Nat × String) (h : x ∈ db.edges.map tripleOf) :
    x ∈ (upsert_payloads db ps).edges.map tripleOf := by
  unfold upsert_payloads
  apply edgePass_mem_triples
  rw [nodePass_edges]
  exact h

theorem foldl_upsert_nodupTriples (bs : List (List NodePayload)) (db : DB)
    (h : (db.edges.map tripleOf).Nodup) :
    (((bs.foldl upsert_payloads db).edges.map tripleOf)).Nodup := by
  induction bs generalizing db with
  | nil => exact h
  | cons b bs ih =>
    rw [List.foldl_cons]
    exact ih (upsert_payloads db b) (upsert_nodupTriples db b h)

theorem foldl_upsert_mem_triples (bs : List (List NodePayload)) (db : DB)
    (x : Nat × Nat × String) (h : x ∈ db.edges.map tripleOf) :
    x ∈ (bs.foldl upsert_payloads db).edges.map tripleOf := by
  induction bs generalizing db with
  | nil => exact h
  | cons b bs ih =>
    rw [List.foldl_cons]
    exact ih (upsert_payloads db b) (upsert_mem_triples db b x h)

theorem filter_image_singleton {α β : Type} [DecidableEq β] (g : α → β)
    (l : List α) (x : β) (hnd : (l.map g).Nodup) (hmem : x ∈ l.map g) :
    (l.filter (fun a => decide (g a = x))).length = 1 := by
  induction l with
  | nil => simp at hmem
  | cons a as ih =>
    rcases List.pairwise_cons.mp hnd with ⟨ha, has⟩
    by_cases hax : g a = x
    · have hnil : as.filter (fun a' => decide (g a' = x)) = [] := by
        refine List.filter_eq_nil_iff.mpr ?_
        intro a' ha' hga'
        simp only [decide_eq_true_eq] at hga'
        exact ha (g a') (List.mem_map_of_mem g ha') (by rw [hga', hax])
      simp [List.filter_cons, hax, hnil]
    · have hx : x ∈ as.map g := by
        rcases List.mem_map.mp hmem with ⟨a', ha', hga'⟩
        rcases List.mem_cons.mp ha' with h1 | h1
        · exact absurd (h1 ▸ hga') hax
        · exact hga' ▸ List.mem_map_of_mem g h1
      simp [List.filter_cons, hax, ih has hx]

/-- Claim C5: once a `(from_id, to_id, edge_type)` triple has been recorded
by a batch, submitting any number of further batches leaves exactly one edge
row with that triple; a different `edge_type` between the same node pair is
a distinct row, itself unique. -/
theorem C5_edge_uniqueness (db : DB) (B : List NodePayload)
    (bs : List (List NodePayload)) (f t : Nat) (et : String)
    (hnd : (db.edges.map tripleOf).Nodup)
    (hmem : (f, t, et) ∈ (upsert_payloads db B).edges.map tripleOf) :
    ((bs.foldl upsert_payloads (upsert_payloads db B)).edges.filter
        (fun e => decide (tripleOf e = (f, t, et)))).length = 1 ∧
    (∀ et', et' ≠ et →
      (f, t, et') ∈
        (bs.foldl upsert_payloads (upsert_payloads db B)).edges.map tripleOf →
      ((bs.foldl upsert_payloads (upsert_payloads db B)).edges.filter
        (fun e => decide (tripleOf e = (f, t, et')))).length = 1) := by
  have hnd1 : ((upsert_payloads db B).edges.map tripleOf).Nodup :=
    upsert_nodupTriples db B hnd
  have hndF := foldl_upsert_nodupTriples bs (upsert_payloads db B) hnd1
  have hmemF := foldl_upsert_mem_triples bs (upsert_payloads db B) _ hmem
  refine ⟨filter_image_singleton tripleOf _ _ hndF hmemF, ?_⟩
  intro et' _ hmem'
  exact filter_image_singleton tripleOf _ _ hndF hmem'

def paW : NodePayload := ⟨"T", "S", "a", [], [⟨"T", "b", "rel"⟩]⟩

def pbW : NodePayload := ⟨"T", "S", "b", [], []⟩

def BW : List NodePayload := [paW, pbW]

theorem C5_edge_uniqueness_witness :
    (([BW].foldl upsert_payloads (upsert_payloads emptyDB BW)).edges.filter
        (fun e => decide (tripleOf e = (1, 2, "rel")))).length = 1 ∧
    (∀ et', et' ≠ "rel" →
      (1, 2, et') ∈
        ([BW].foldl upsert_payloads (upsert_payloads emptyDB BW)).edges.map
          tripleOf →
      (([BW].foldl upsert_payloads (upsert_payloads emptyDB BW)).edges.filter
        (fun e => decide (tripleOf e = (1, 2, et')))).length = 1) :=
  C5_edge_uniqueness emptyDB BW [BW] 1 2 "rel" (by decide) (by decide)

/-! ### Agreement of the transactional run with the pure two-pass result -/

theorem nodeFold_noFail (ps : List NodePayload) (d : DB) (i : Nat) :
    ps.foldlM (nodeStepTx noFail) (d, i) =
      Except.ok (nodePass d ps, i + ps.length) := by
  induction ps generalizing d i with
  | nil => rfl
  | cons p ps ih =>
    rw [List.foldlM_cons]
    have hstep : nodeStepTx noFail (d, i) p =
        Except.ok (upsertNode d p, i + 1) := rfl
    rw [hstep]
    show ps.foldlM (nodeStepTx noFail) (upsertNode d p, i + 1) = _
    rw [ih]
    have : nodePass d (p :: ps) = nodePass (upsertNode d p) ps := by
      simp [nodePass]
    rw [this]
    have : i + (p :: ps).length = i + 1 + ps.length := by
      simp
      omega
    rw [this]

theorem edgeWriteFold_noFail (fid : Nat) (es : List EdgePayload) (d : DB)
    (i : Nat) :
    ∃ j, es.foldlM (edgeWriteTx noFail fid) (d, i) =
      Except.ok (es.foldl (edgeWrite fid) d, j) := by
  induction es generalizing d i with
  | nil => exact ⟨i, rfl⟩
  | cons e es ih =>
    rw [List.foldlM_cons, List.foldl_cons]
    by_cases ht : truthyId (getNodeId d e.to_node_type e.to_lookup_key)
    · have hstep : edgeWriteTx noFail fid (d, i) e =
          Except.ok (insertEdge d fid
            ((getNodeId d e.to_node_type e.to_lookup_key).getD 0)
            e.edge_type, i + 1) := by
        unfold edgeWriteTx
        simp [ht, noFail]
      have hw : edgeWrite fid d e =
          insertEdge d fid
            ((getNodeId d e.to_node_type e.to_lookup_key).getD 0)
            e.edge_type := by
        unfold edgeWrite
        simp [ht]
      rw [hstep, hw]
      exact ih _ _
    · have hstep : edgeWriteTx noFail fid (d, i) e = Except.ok (d, i) := by
        unfold edgeWriteTx
        simp [ht]
      have hw : edgeWrite fid d e = d := by
        unfold edgeWrite
        simp [ht]
      rw [hstep, hw]
      exact ih _ _

theorem edgeStepFold_noFail (ps : List NodePayload) (d : DB) (i : Nat) :
    ∃ j, ps.foldlM (edgeStepTx noFail) (d, i) =
      Except.ok (edgePass d ps, j) := by
  induction ps generalizing d i with
  | nil => exact ⟨i, rfl⟩
  | cons p ps ih =>
    rw [List.foldlM_cons]
    have hpass : edgePass d (p :: ps) = edgePass (edgeStep d p) ps := by
      simp [edgePass]
    cases hg : getNodeId d p.node_type p.lookup_key with
    | none =>
      have hstep : edgeStepTx noFail (d, i) p = Except.ok (d, i) := by
        unfold edgeStepTx
        rw [hg]
      have hes : edgeStep d p = d := by
        unfold edgeStep
        rw [hg]
      rw [hstep, hpass, hes]
      exact ih d i
    | some fid =>
      obtain ⟨j, hj⟩ := edgeWriteFold_noFail fid p.edges d i
      have hstep : edgeStepTx noFail (d, i) p =
          Except.ok (p.edges.foldl (edgeWrite fid) d, j) := by
        unfold edgeStepTx
        rw [hg]
        exact hj
      have hes : edgeStep d p = p.edges.foldl (edgeWrite fid) d := by
        unfold edgeStep
        rw [hg]
      rw [hstep, hpass, hes]
      exact ih _ _

/-- With no injected failure the transactional run commits exactly the pure
two-pass result. -/
theorem tx_noFail (db : DB) (ps : List NodePayload) :
    upsertPayloadsTx db ps noFail = Except.ok (upsert_payloads db ps) := by
  have h1 := nodeFold_noFail ps { db with time := db.time + 1 } 0
  obtain ⟨j, hj⟩ :=
    edgeStepFold_noFail ps (nodePass { db with time := db.time + 1 } ps)
      (0 + ps.length)
  show List.foldlM (nodeStepTx noFail) ({ db with time := db.time + 1 }, 0)
      ps >>=
      (fun st1 => List.foldlM (edgeStepTx noFail) st1 ps >>=
        fun st2 => pure st2.1) =
    Except.ok (upsert_payloads db ps)
  rw [h1]
  show List.foldlM (edgeStepTx noFail)
      (nodePass { db with time := db.time + 1 } ps, 0 + ps.length) ps >>=
      (fun st2 => pure st2.1) = Except.ok (upsert_payloads db ps)
  rw [hj]
  rfl

/-- Claim C2: the batch is atomic — if any write in either pass raises, the
rollback leaves the committed node and edge tables exactly as before the
call, even when the failure occurs mid edge-pass after the node pass
succeeded. -/
theorem C2_batch_atomicity (db : DB) (ps : List NodePayload)
    (fail : Nat → Bool) (i : Nat)
    (h : upsertPayloadsTx db ps fail = Except.error i) :
    (committedAfter db ps fail).nodes = db.nodes ∧
    (committedAfter db ps fail).edges = db.edges := by
  unfold committedAfter
  rw [h]
  exact ⟨rfl, rfl⟩

def dbC2 : DB :=
  ⟨[⟨1, "T", "S", "a", [], 0, 0⟩, ⟨2, "T", "S", "b", [], 0, 0⟩], [], 3, 0⟩

def psC2 : List NodePayload := [⟨"T", "S", "a", [], [⟨"T", "b", "rel"⟩]⟩]

def failC2 : Nat → Bool := fun i => decide (i = 1)

theorem C2_batch_atomicity_witness :
    upsertPayloadsTx dbC2 psC2 failC2 = Except.error 1 ∧
    ((committedAfter dbC2 psC2 failC2).nodes = dbC2.nodes ∧
      (committedAfter dbC2 psC2 failC2).edges = dbC2.edges) ∧
    (upsert_payloads dbC2 psC2).edges ≠ dbC2.edges :=
  ⟨rfl, C2_batch_atomicity dbC2 psC2 failC2 1 rfl, by decide⟩

/-! ### Dangling edges are silently dropped -/

theorem findNode_upsertNode_other (db : DB) (p : NodePayload)
    (nt lk : String) (hne : ¬(p.node_type = nt ∧ p.lookup_key = lk))
    (h : findNode db nt lk = none) :
    findNode (upsertNode db p) nt lk = none := by
  unfold upsertNode
  cases hf : findNode db p.node_type p.lookup_key with
  | some n =>
    show (db.nodes.map _).find? (predKey nt lk) = none
    rw [find?_map_pred _ _ (predKey_mergeUpd _ _ _ _ _ _)]
    unfold findNode at h
    rw [h]
    rfl
  | none =>
    show (db.nodes ++ _).find? (predKey nt lk) = none
    unfold findNode at h
    rw [find?_append_none _ _ _ h, List.find?_cons]
    have : predKey nt lk
        ⟨db.nextId, p.node_type, p.sub_type, p.lookup_key, canon p.data,
          db.time, db.time⟩ = false := decide_eq_false hne
    rw [this]
    rfl

/-- Claim C6: a payload whose single declared edge has an unresolvable
target is ingested without error, its node is stored, and no edge row is
recorded — the dangling edge is silently dropped. -/
theorem C6_dangling_edge (db : DB) (p : NodePayload) (e : EdgePayload)
    (he : p.edges = [e])
    (ht : findNode db e.to_node_type e.to_lookup_key = none)
    (hself : ¬(p.node_type = e.to_node_type ∧ p.lookup_key = e.to_lookup_key)) :
    upsertPayloadsTx db [p] noFail = Except.ok (upsert_payloads db [p]) ∧
    (upsert_payloads db [p]).edges = db.edges ∧
    ∃ n', findNode (upsert_payloads db [p]) p.node_type p.lookup_key =
      some n' := by
  refine ⟨tx_noFail db [p], ?_, ?_⟩
  · show (edgePass (nodePass { db with time := db.time + 1 } [p]) [p]).edges = _
    have hn : nodePass { db with time := db.time + 1 } [p] =
        upsertNode { db with time := db.time + 1 } p := by
      simp [nodePass]
    have ht1 : findNode { db with time := db.time + 1 } e.to_node_type
        e.to_lookup_key = none := ht
    have ht2 : findNode (upsertNode { db with time := db.time + 1 } p)
        e.to_node_type e.to_lookup_key = none :=
      findNode_upsertNode_other _ p _ _ hself ht1
    have hpass : edgePass (upsertNode { db with time := db.time + 1 } p) [p] =
        edgeStep (upsertNode { db with time := db.time + 1 } p) p := by
      simp [edgePass]
    rw [hn, hpass]
    unfold edgeStep
    cases hg : getNodeId (upsertNode { db with time := db.time + 1 } p)
        p.node_type p.lookup_key with
    | none =>
      show (upsertNode { db with time := db.time + 1 } p).edges = db.edges
      rw [upsertNode_edges]
    | some fid =>
      show (List.foldl (edgeWrite fid)
        (upsertNode { db with time := db.time + 1 } p) p.edges).edges =
        db.edges
      rw [he]
      have hw : edgeWrite fid (upsertNode { db with time := db.time + 1 } p)
          e = upsertNode { db with time := db.time + 1 } p := by
        unfold edgeWrite
        have : getNodeId (upsertNode { db with time := db.time + 1 } p)
            e.to_node_type e.to_lookup_key = none := by
          unfold getNodeId
          rw [ht2]
          rfl
        rw [this]
        rfl
      rw [List.foldl_cons, hw, List.foldl_nil, upsertNode_edges]
  · cases hf : findNode db p.node_type p.lookup_key with
    | some n => exact ⟨_, (upsert_single_found db p n hf).2⟩
    | none => exact ⟨_, (upsert_single_new db p hf).2⟩

def dbC6 : DB := ⟨[], [], 1, 0⟩

def pC6 : NodePayload := ⟨"T", "S", "a", [("x", "1")], [⟨"T", "ghost", "rel"⟩]⟩

theorem C6_dangling_edge_witness :
    upsertPayloadsTx dbC6 [pC6] noFail =
      Except.ok (upsert_payloads dbC6 [pC6]) ∧
    (upsert_payloads dbC6 [pC6]).edges = dbC6.edges ∧
    ∃ n', findNode (upsert_payloads dbC6 [pC6]) pC6.node_type pC6.lookup_key =
      some n' :=
  C6_dangling_edge dbC6 pC6 ⟨"T", "ghost", "rel"⟩ rfl (by decide) (by decide)

/-!
### The breadth-first traversal of `store_subgraph`

`store_subgraph` keeps a FIFO `to_visit` list, a visited-id set, a dict of
fetched node records keyed by id and a list of collected edge rows; every
incident edge row (`WHERE from_id=? OR to_id=?`, insertion order) of a newly
visited id is appended, and the opposite endpoint is enqueued when not yet
visited.  The loop is modelled with explicit fuel; `none` is the model of
the Python loop failing (node fetch returning no row) or of fuel running
out.
-/

def incidentE (db : DB) (nid : Nat) : List Edge :=
  db.edges.filter (fun e => decide (e.from_id = nid ∨ e.to_id = nid))

/-- `other = ed["to_id"] if ed["from_id"] == nid else ed["from_id"]`. -/
def otherEnd (nid : Nat) (e : Edge) : Nat :=
  if e.from_id = nid then e.to_id else e.from_id

def bfsAux (db : DB) :
    Nat → List Nat → List Nat → List Node → List Edge →
    Option (List Nat × List Node × List Edge)
  | _, [], visited, ns, es => some (visited, ns, es)
  | 0, _ :: _, _, _, _ => none
  | fuel + 1, nid :: rest, visited, ns, es =>
    if nid ∈ visited then bfsAux db fuel rest visited ns es
    else
      match
        (if ns.any (fun n => decide (n.id = nid)) then some ns
         else (db.nodes.find? (fun n => decide (n.id = nid))).map
          (fun r => ns ++ [r])) with
      | none => none
      | some ns' =>
        bfsAux db fuel
          (rest ++ ((incidentE db nid).map (otherEnd nid)).filter
            (fun o => decide (o ∉ nid :: visited)))
          (nid :: visited) ns' (es ++ incidentE db nid)

def endpointsList (db : DB) : List Nat :=
  db.edges.foldr (fun e acc => e.from_id :: e.to_id :: acc) []

def candidates (db : DB) (root : Nat) : List Nat :=
  (root :: endpointsList db).dedup

def deg (db : DB) (v : Nat) : Nat := (incidentE db v).length

def unvisitedWeight (db : DB) (root : Nat) (visited : List Nat) : Nat :=
  (((candidates db root).filter (fun v => decide (v ∉ visited))).map
    (fun v => 1 + deg db v)).sum

/-- An upper bound on the remaining iterations of the BFS loop. -/
def bfsMeasure (db : DB) (root : Nat) (toVisit visited : List Nat) : Nat :=
  toVisit.length + unvisitedWeight db root visited

/-- The subgraph collection phase of `store_subgraph` (steps 1–2): visited
ids in reverse visit order, fetched node records in visit order and the
collected incident edge rows. -/
def collectSubgraph (db : DB) (root : Nat) :
    Option (List Nat × List Node × List Edge) :=
  bfsAux db (bfsMeasure db root [root] []) [root] [] [] []

/-- One undirected adjacency step over the edges table. -/
def adj (db : DB) (x y : Nat) : Prop :=
  ∃ e ∈ db.edges, (e.from_id = x ∧ e.to_id = y) ∨ (e.from_id = y ∧ e.to_id = x)

/-- Undirected reachability over the edges table. -/
def Reaches (db : DB) : Nat → Nat → Prop :=
  Relation.ReflTransGen (adj db)

theorem bfsAux_step_visited (db : DB) (fuel nid : Nat) (rest visited : List Nat)
    (ns : List Node) (es : List Edge) (h : nid ∈ visited) :
    bfsAux db (fuel + 1) (nid :: rest) visited ns es =
      bfsAux db fuel rest visited ns es := by
  conv_lhs => unfold bfsAux
  rw [if_pos h]

theorem bfsAux_step_new (db : DB) (fuel nid : Nat) (rest visited : List Nat)
    (ns : List Node) (es : List Edge) (r0 : Node) (h : ¬ nid ∈ visited)
    (hany : ns.any (fun n => decide (n.id = nid)) = false)
    (hfind : db.nodes.find? (fun n => decide (n.id = nid)) = some r0) :
    bfsAux db (fuel + 1) (nid :: rest) visited ns es =
      bfsAux db fuel
        (rest ++ ((incidentE db nid).map (otherEnd nid)).filter
          (fun o => decide (o ∉ nid :: visited)))
        (nid :: visited) (ns ++ [r0]) (es ++ incidentE db nid) := by
  conv_lhs => unfold bfsAux
  rw [if_neg h, hany, hfind]
  rfl

theorem mem_endpoints_aux (l : List Edge) (e : Edge) (h : e ∈ l) :
    e.from_id ∈ l.foldr (fun e acc => e.from_id :: e.to_id :: acc) [] ∧
    e.to_id ∈ l.foldr (fun e acc => e.from_id :: e.to_id :: acc) [] := by
  induction l with
  | nil => simp at h
  | cons a as ih =>
    rcases List.mem_cons.mp h with h1 | h1
    · subst h1
      simp
    · rcases ih h1 with ⟨h2, h3⟩
      exact ⟨by simp [h2], by simp [h3]⟩

theorem mem_candidates_of_endpoint (db : DB) (root x : Nat)
    (hx : x ∈ endpointsList db) : x ∈ candidates db root := by
  unfold candidates
  rw [List.mem_dedup]
  exact List.mem_cons_of_mem _ hx

theorem root_mem_candidates (db : DB) (root : Nat) :
    root ∈ candidates db root := by
  unfold candidates
  rw [List.mem_dedup]
  exact List.mem_cons_self _ _

theorem mem_incidentE (db : DB) (nid : Nat) (e : Edge) :
    e ∈ incidentE db nid ↔
      e ∈ db.edges ∧ (e.from_id = nid ∨ e.to_id = nid) := by
  simp [incidentE, List.mem_filter]

theorem otherEnd_cases (nid : Nat) (e : Edge) :
    otherEnd nid e = e.from_id ∨ otherEnd nid e = e.to_id := by
  unfold otherEnd
  split
  · exact Or.inr rfl
  · exact Or.inl rfl

theorem adj_of_incident (db : DB) (nid : Nat) (e : Edge)
    (he : e ∈ incidentE db nid) : adj db nid (otherEnd nid e) := by
  rcases (mem_incidentE db nid e).mp he with ⟨hmem, hcond⟩
  unfold otherEnd
  by_cases hf : e.from_id = nid
  · rw [if_pos hf]
    exact ⟨e, hmem, Or.inl ⟨hf, rfl⟩⟩
  · rw [if_neg hf]
    rcases hcond with h | h
    · exact absurd h hf
    · exact ⟨e, hmem, Or.inr ⟨rfl, h⟩⟩

theorem adj_otherEnd (db : DB) (nid w : Nat) (h : adj db nid w) :
    ∃ e ∈ incidentE db nid, otherEnd nid e = w := by
  obtain ⟨e, hmem, hc⟩ := h
  refine ⟨e, ?_, ?_⟩
  · rw [mem_incidentE]
    rcases hc with ⟨h1, h2⟩ | ⟨h1, h2⟩
    · exact ⟨hmem, Or.inl h1⟩
    · exact ⟨hmem, Or.inr h2⟩
  · unfold otherEnd
    rcases hc with ⟨h1, h2⟩ | ⟨h1, h2⟩
    · rw [if_pos h1]
      exact h2
    · by_cases hf : e.from_id = nid
      · rw [if_pos hf, h2, ← hf, h1]
      · rw [if_neg hf]
        exact h1

theorem adj_symm (db : DB) (x y : Nat) (h : adj db x y) : adj db y x := by
  obtain ⟨e, hmem, hc⟩ := h
  exact ⟨e, hmem, hc.symm⟩

theorem reaches_mem_closed (db : DB) (S : List Nat)
    (hS : ∀ v ∈ S, ∀ w, adj db v w → w ∈ S) (a b : Nat) (ha : a ∈ S)
    (hab : Reaches db a b) : b ∈ S := by
  induction hab with
  | refl => exact ha
  | tail _ hyz ih => exact hS _ ih _ hyz

theorem sum_filter_remove (l : List Nat) (f : Nat → Nat) (visited : List Nat)
    (x : Nat) (hnd : l.Nodup) (hx : x ∈ l) (hxv : x ∉ visited) :
    ((l.filter (fun v => decide (v ∉ x :: visited))).map f).sum + f x =
      ((l.filter (fun v => decide (v ∉ visited))).map f).sum := by
  induction l with
  | nil => simp at hx
  | cons a as ih =>
    rcases List.pairwise_cons.mp hnd with ⟨hane, hnd'⟩
    rcases List.mem_cons.mp hx with h1 | h1
    · have hav : a ∉ visited := h1 ▸ hxv
      have hfeq : as.filter (fun v => decide (v ∉ x :: visited)) =
          as.filter (fun v => decide (v ∉ visited)) := by
        apply List.filter_congr
        intro v hv
        have hvx : v ≠ x := by
          intro hvx
          exact (hane v hv) (hvx.trans h1).symm
        simp [List.mem_cons, hvx]
      have hdrop : (a :: as).filter (fun v => decide (v ∉ x :: visited)) =
          as.filter (fun v => decide (v ∉ x :: visited)) := by
        simp [List.filter_cons, List.mem_cons, h1.symm]
      have hkeep : (a :: as).filter (fun v => decide (v ∉ visited)) =
          a :: as.filter (fun v => decide (v ∉ visited)) := by
        simp [List.filter_cons, hav]
      rw [hdrop, hkeep, hfeq, h1]
      simp [Nat.add_comm]
    · have hax : a ≠ x := hane x h1
      by_cases hav : a ∈ visited
      · have h2 : (a :: as).filter (fun v => decide (v ∉ x :: visited)) =
            as.filter (fun v => decide (v ∉ x :: visited)) := by
          simp [List.filter_cons, List.mem_cons, hav]
        have h3 : (a :: as).filter (fun v => decide (v ∉ visited)) =
            as.filter (fun v => decide (v ∉ visited)) := by
          simp [List.filter_cons, hav]
        rw [h2, h3]
        exact ih hnd' h1
      · have h2 : (a :: as).filter (fun v => decide (v ∉ x :: visited)) =
            a :: as.filter (fun v => decide (v ∉ x :: visited)) := by
          simp [List.filter_cons, List.mem_cons, hav, hax]
        have h3 : (a :: as).filter (fun v => decide (v ∉ visited)) =
            a :: as.filter (fun v => decide (v ∉ visited)) := by
          simp [List.filter_cons, hav]
        rw [h2, h3]
        simp only [List.map_cons, List.sum_cons]
        rw [Nat.add_assoc, ih hnd' h1]

theorem unvisitedWeight_cons (db : DB) (root : Nat) (visited : List Nat)
    (nid : Nat) (hc : nid ∈ candidates db root) (hv : nid ∉ visited) :
    unvisitedWeight db root (nid :: visited) + (1 + deg db nid) =
      unvisitedWeight db root visited := by
  unfold unvisitedWeight
  exact sum_filter_remove (candidates db root) (fun v => 1 + deg db v)
    visited nid (List.nodup_dedup _) hc hv

/-- Postcondition of the BFS loop, relative to the starting root `r`. -/
structure BfsPost (db : DB) (r : Nat) (tv vis : List Nat) (ns : List Node)
    (es : List Edge) (out : List Nat × List Node × List Edge) : Prop where
  mono_vis : ∀ x ∈ vis, x ∈ out.1
  mono_tv : ∀ x ∈ tv, x ∈ out.1
  sound : ∀ x ∈ out.1, Reaches db r x
  closed : ∀ x ∈ out.1, ∀ w, adj db x w → w ∈ out.1
  vNodup : out.1.Nodup
  ns_sub : ∀ m ∈ out.2.1, m ∈ db.nodes ∧ m.id ∈ out.1
  ns_cover : ∀ x ∈ out.1, ∃ m ∈ out.2.1, m.id = x
  ns_idNodup : (out.2.1.map Node.id).Nodup
  es_iff : ∀ e, e ∈ out.2.2 ↔
    (e ∈ db.edges ∧ (e.from_id ∈ out.1 ∨ e.to_id ∈ out.1))

theorem mem_endpointsList (db : DB) (e : Edge) (h : e ∈ db.edges) :
    e.from_id ∈ endpointsList db ∧ e.to_id ∈ endpointsList db :=
  mem_endpoints_aux db.edges e h

theorem bfs_nil_case (db : DB) (r : Nat) (fuel : Nat) (vis : List Nat)
    (ns : List Node) (es : List Edge)
    (hvr : ∀ v ∈ vis, Reaches db r v)
    (hcl : ∀ v ∈ vis, ∀ w, adj db v w → (w ∈ vis ∨ w ∈ ([] : List Nat)))
    (hvn : vis.Nodup)
    (hns0 : (ns.map Node.id).Nodup)
    (hns1 : ∀ m ∈ ns, m ∈ db.nodes ∧ m.id ∈ vis)
    (hns2 : ∀ v ∈ vis, ∃ m ∈ ns, m.id = v)
    (hes : ∀ e, e ∈ es ↔ (e ∈ db.edges ∧ (e.from_id ∈ vis ∨ e.to_id ∈ vis))) :
    ∃ out, bfsAux db fuel [] vis ns es = some out ∧
      BfsPost db r [] vis ns es out := by
  have heq : bfsAux db fuel [] vis ns es = some (vis, ns, es) := by
    cases fuel <;> rfl
  refine ⟨(vis, ns, es), heq, ?_⟩
  refine ⟨fun x hx => hx, fun x hx => absurd hx (List.not_mem_nil x), hvr, ?_,
    hvn, hns1, hns2, hns0, hes⟩
  intro x hx w hw
  rcases hcl x hx w hw with h | h
  · exact h
  · exact absurd h (List.not_mem_nil w)

/-- Master invariant lemma for the BFS loop: starting from any loop state
satisfying the invariants, with fuel at least the loop measure, the loop
returns, and the final visited set is sound, adjacency-closed, and covered
by the collected node records, while the collected edge rows are exactly
the rows incident to a visited id. -/
theorem bfs_master (db : DB) (r : Nat)
    (hwf_e : ∀ e ∈ db.edges, (∃ n ∈ db.nodes, n.id = e.from_id) ∧
      (∃ n ∈ db.nodes, n.id = e.to_id)) (fuel : Nat) :
    ∀ (tv vis : List Nat) (ns : List Node) (es : List Edge),
    bfsMeasure db r tv vis ≤ fuel →
    (∀ v ∈ tv, v ∈ candidates db r) →
    (∀ v ∈ tv, ∃ n ∈ db.nodes, n.id = v) →
    (∀ v ∈ tv, Reaches db r v) →
    (∀ v ∈ vis, Reaches db r v) →
    (∀ v ∈ vis, ∀ w, adj db v w → (w ∈ vis ∨ w ∈ tv)) →
    vis.Nodup →
    (ns.map Node.id).Nodup →
    (∀ m ∈ ns, m ∈ db.nodes ∧ m.id ∈ vis) →
    (∀ v ∈ vis, ∃ m ∈ ns, m.id = v) →
    (∀ e, e ∈ es ↔ (e ∈ db.edges ∧ (e.from_id ∈ vis ∨ e.to_id ∈ vis))) →
    ∃ out, bfsAux db fuel tv vis ns es = some out ∧
      BfsPost db r tv vis ns es out := by
  induction fuel with
  | zero =>
    intro tv vis ns es hfuel htvc htvn htvr hvr hcl hvn hns0 hns1 hns2 hes
    cases tv with
    | nil => exact bfs_nil_case db r 0 vis ns es hvr hcl hvn hns0 hns1 hns2 hes
    | cons nid rest =>
      exfalso
      unfold bfsMeasure at hfuel
      simp at hfuel
  | succ fuel ih =>
    intro tv vis ns es hfuel htvc htvn htvr hvr hcl hvn hns0 hns1 hns2 hes
    cases tv with
    | nil =>
      exact bfs_nil_case db r (fuel + 1) vis ns es hvr hcl hvn hns0 hns1 hns2
        hes
    | cons nid rest =>
      by_cases hmem : nid ∈ vis
      · have hfuel' : bfsMeasure db r rest vis ≤ fuel := by
          unfold bfsMeasure at hfuel ⊢
          simp only [List.length_cons] at hfuel
          omega
        obtain ⟨out, heq, post⟩ := ih rest vis ns es hfuel'
          (fun v hv => htvc v (List.mem_cons_of_mem _ hv))
          (fun v hv => htvn v (List.mem_cons_of_mem _ hv))
          (fun v hv => htvr v (List.mem_cons_of_mem _ hv))
          hvr
          (by
            intro v hv w hw
            rcases hcl v hv w hw with h | h
            · exact Or.inl h
            · rcases List.mem_cons.mp h with h1 | h1
              · exact Or.inl (h1 ▸ hmem)
              · exact Or.inr h1)
          hvn hns0 hns1 hns2 hes
        refine ⟨out, ?_, ?_⟩
        · rw [bfsAux_step_visited db fuel nid rest vis ns es hmem]
          exact heq
        · refine ⟨post.mono_vis, ?_, post.sound, post.closed, post.vNodup,
            post.ns_sub, post.ns_cover, post.ns_idNodup, post.es_iff⟩
          intro x hx
          rcases List.mem_cons.mp hx with h1 | h1
          · exact post.mono_vis x (h1 ▸ hmem)
          · exact post.mono_tv x h1
      · obtain ⟨n0, hn0m, hn0id⟩ := htvn nid (List.mem_cons_self nid rest)
        cases hfind : db.nodes.find? (fun n => decide (n.id = nid)) with
        | none =>
          exfalso
          have := List.find?_eq_none.mp hfind n0 hn0m
          simp [hn0id] at this
        | some r0 =>
        have hr0m : r0 ∈ db.nodes := List.mem_of_find?_eq_some hfind
        have hr0id : r0.id = nid := by
          have := List.find?_some hfind
          simpa using this
        have hany : ns.any (fun n => decide (n.id = nid)) = false := by
          rw [List.any_eq_false]
          intro m hm
          simp only [decide_eq_true_eq]
          intro hid
          exact hmem (hid ▸ (hns1 m hm).2)
        have hcand : nid ∈ candidates db r :=
          htvc nid (List.mem_cons_self _ _)
        have hweq : unvisitedWeight db r (nid :: vis) + (1 + deg db nid) =
            unvisitedWeight db r vis :=
          unvisitedWeight_cons db r vis nid hcand hmem
        have hlen : (((incidentE db nid).map (otherEnd nid)).filter
            (fun o => decide (o ∉ nid :: vis))).length ≤ deg db nid := by
          calc (((incidentE db nid).map (otherEnd nid)).filter
              (fun o => decide (o ∉ nid :: vis))).length
              ≤ ((incidentE db nid).map (otherEnd nid)).length :=
                List.length_filter_le _ _
            _ = deg db nid := by
                rw [List.length_map]
                rfl
        have hfuel' : bfsMeasure db r
            (rest ++ ((incidentE db nid).map (otherEnd nid)).filter
              (fun o => decide (o ∉ nid :: vis))) (nid :: vis) ≤ fuel := by
          unfold bfsMeasure at hfuel ⊢
          rw [List.length_append]
          simp only [List.length_cons] at hfuel
          omega
        have htvc' : ∀ v ∈ rest ++ ((incidentE db nid).map
            (otherEnd nid)).filter (fun o => decide (o ∉ nid :: vis)),
            v ∈ candidates db r := by
          intro v hv
          rcases List.mem_append.mp hv with h | h
          · exact htvc v (List.mem_cons_of_mem _ h)
          · obtain ⟨e, he, hve⟩ := List.mem_map.mp (List.mem_of_mem_filter h)
            have hedb : e ∈ db.edges := ((mem_incidentE db nid e).mp he).1
            rcases otherEnd_cases nid e with hc | hc
            · exact mem_candidates_of_endpoint db r v
                (by rw [← hve, hc]; exact (mem_endpointsList db e hedb).1)
            · exact mem_candidates_of_endpoint db r v
                (by rw [← hve, hc]; exact (mem_endpointsList db e hedb).2)
        have htvn' : ∀ v ∈ rest ++ ((incidentE db nid).map
            (otherEnd nid)).filter (fun o => decide (o ∉ nid :: vis)),
            ∃ n ∈ db.nodes, n.id = v := by
          intro v hv
          rcases List.mem_append.mp hv with h | h
          · exact htvn v (List.mem_cons_of_mem _ h)
          · obtain ⟨e, he, hve⟩ := List.mem_map.mp (List.mem_of_mem_filter h)
            have hedb : e ∈ db.edges := ((mem_incidentE db nid e).mp he).1
            rcases otherEnd_cases nid e with hc | hc
            · exact hve ▸ hc ▸ (hwf_e e hedb).1
            · exact hve ▸ hc ▸ (hwf_e e hedb).2
        have htvr' : ∀ v ∈ rest ++ ((incidentE db nid).map
            (otherEnd nid)).filter (fun o => decide (o ∉ nid :: vis)),
            Reaches db r v := by
          intro v hv
          rcases List.mem_append.mp hv with h | h
          · exact htvr v (List.mem_cons_of_mem _ h)
          · obtain ⟨e, he, hve⟩ := List.mem_map.mp (List.mem_of_mem_filter h)
            have hadj : adj db nid (otherEnd nid e) := adj_of_incident db nid e he
            exact Relation.ReflTransGen.tail
              (htvr nid (List.mem_cons_self _ _)) (hve ▸ hadj)
        have hvr' : ∀ v ∈ nid :: vis, Reaches db r v := by
          intro v hv
          rcases List.mem_cons.mp hv with h1 | h1
          · exact h1 ▸ htvr nid (List.mem_cons_self _ _)
          · exact hvr v h1
        have hcl' : ∀ v ∈ nid :: vis, ∀ w, adj db v w →
            (w ∈ nid :: vis ∨ w ∈ rest ++ ((incidentE db nid).map
              (otherEnd nid)).filter (fun o => decide (o ∉ nid :: vis))) := by
          intro v hv w hw
          rcases List.mem_cons.mp hv with h1 | h1
          · obtain ⟨e, he, heq2⟩ := adj_otherEnd db nid w (h1 ▸ hw)
            by_cases hwv : w ∈ nid :: vis
            · exact Or.inl hwv
            · refine Or.inr (List.mem_append_right _ ?_)
              rw [List.mem_filter]
              exact ⟨List.mem_map.mpr ⟨e, he, heq2⟩, by simpa using hwv⟩
          · rcases hcl v h1 w hw with h2 | h2
            · exact Or.inl (List.mem_cons_of_mem _ h2)
            · rcases List.mem_cons.mp h2 with h3 | h3
              · exact Or.inl (h3 ▸ List.mem_cons_self _ _)
              · exact Or.inr (List.mem_append_left _ h3)
        have hvn' : (nid :: vis).Nodup := List.nodup_cons.mpr ⟨hmem, hvn⟩
        have hns0' : ((ns ++ [r0]).map Node.id).Nodup := by
          have hmapeq : (ns ++ [r0]).map Node.id =
              ns.map Node.id ++ [nid] := by
            simp [hr0id]
          rw [hmapeq, List.nodup_append]
          refine ⟨hns0, by simp, ?_⟩
          intro x hx
          simp only [List.mem_singleton]
          intro hxk
          obtain ⟨m, hm, hxm⟩ := List.mem_map.mp hx
          exact hmem (by rw [← hxk, ← hxm]; exact (hns1 m hm).2)
        have hns1' : ∀ m ∈ ns ++ [r0], m ∈ db.nodes ∧ m.id ∈ nid :: vis := by
          intro m hm
          rcases List.mem_append.mp hm with h | h
          · exact ⟨(hns1 m h).1, List.mem_cons_of_mem _ (hns1 m h).2⟩
          · rw [List.mem_singleton] at h
            subst h
            exact ⟨hr0m, hr0id ▸ List.mem_cons_self _ _⟩
        have hns2' : ∀ v ∈ nid :: vis, ∃ m ∈ ns ++ [r0], m.id = v := by
          intro v hv
          rcases List.mem_cons.mp hv with h1 | h1
          · exact ⟨r0, List.mem_append_right _ (List.mem_singleton.mpr rfl),
              h1 ▸ hr0id⟩
          · obtain ⟨m, hm, hmv⟩ := hns2 v h1
            exact ⟨m, List.mem_append_left _ hm, hmv⟩
        have hes' : ∀ e, e ∈ es ++ incidentE db nid ↔
            (e ∈ db.edges ∧ (e.from_id ∈ nid :: vis ∨ e.to_id ∈ nid :: vis)) := by
          intro e
          constructor
          · intro he
            rcases List.mem_append.mp he with h | h
            · obtain ⟨h1, h2⟩ := (hes e).mp h
              exact ⟨h1, h2.imp (List.mem_cons_of_mem _)
                (List.mem_cons_of_mem _)⟩
            · obtain ⟨h1, h2⟩ := (mem_incidentE db nid e).mp h
              refine ⟨h1, h2.imp ?_ ?_⟩
              · intro hf
                exact hf ▸ List.mem_cons_self _ _
              · intro hf
                exact hf ▸ List.mem_cons_self _ _
          · rintro ⟨h1, h2⟩
            rcases h2 with h2 | h2
            · rcases List.mem_cons.mp h2 with h3 | h3
              · exact List.mem_append_right _
                  ((mem_incidentE db nid e).mpr ⟨h1, Or.inl h3⟩)
              · exact List.mem_append_left _ ((hes e).mpr ⟨h1, Or.inl h3⟩)
            · rcases List.mem_cons.mp h2 with h3 | h3
              · exact List.mem_append_right _
                  ((mem_incidentE db nid e).mpr ⟨h1, Or.inr h3⟩)
              · exact List.mem_append_left _ ((hes e).mpr ⟨h1, Or.inr h3⟩)
        obtain ⟨out, heq, post⟩ := ih _ _ _ _ hfuel' htvc' htvn' htvr' hvr'
          hcl' hvn' hns0' hns1' hns2' hes'
        refine ⟨out, ?_, ?_⟩
        · rw [bfsAux_step_new db fuel nid rest vis ns es r0 hmem hany hfind]
          exact heq
        · refine ⟨?_, ?_, post.sound, post.closed, post.vNodup, post.ns_sub,
            post.ns_cover, post.ns_idNodup, post.es_iff⟩
          · intro x hx
            exact post.mono_vis x (List.mem_cons_of_mem _ hx)
          · intro x hx
            rcases List.mem_cons.mp hx with h1 | h1
            · exact post.mono_vis x (h1 ▸ List.mem_cons_self _ _)
            · exact post.mono_tv x (List.mem_append_left _ h1)

theorem bfsAux_step_cached (db : DB) (fuel nid : Nat) (rest visited : List Nat)
    (ns : List Node) (es : List Edge) (h : ¬ nid ∈ visited)
    (hany : ns.any (fun n => decide (n.id = nid)) = true) :
    bfsAux db (fuel + 1) (nid :: rest) visited ns es =
      bfsAux db fuel
        (rest ++ ((incidentE db nid).map (otherEnd nid)).filter
          (fun o => decide (o ∉ nid :: visited)))
        (nid :: visited) ns (es ++ incidentE db nid) := by
  conv_lhs => unfold bfsAux
  rw [if_neg h, hany]
  rfl

theorem bfsAux_step_missing (db : DB) (fuel nid : Nat)
    (rest visited : List Nat) (ns : List Node) (es : List Edge)
    (h : ¬ nid ∈ visited)
    (hany : ns.any (fun n => decide (n.id = nid)) = false)
    (hfind : db.nodes.find? (fun n => decide (n.id = nid)) = none) :
    bfsAux db (fuel + 1) (nid :: rest) visited ns es = none := by
  conv_lhs => unfold bfsAux
  rw [if_neg h, hany, hfind]
  rfl

theorem bfsAux_nil (db : DB) (fuel : Nat) (vis : List Nat) (ns : List Node)
    (es : List Edge) : bfsAux db fuel [] vis ns es = some (vis, ns, es) := by
  cases fuel <;> rfl

theorem bfsAux_zero_cons (db : DB) (nid : Nat) (rest vis : List Nat)
    (ns : List Node) (es : List Edge) :
    bfsAux db 0 (nid :: rest) vis ns es = none := rfl

/-- More fuel never changes a successful BFS run. -/
theorem bfsAux_mono (db : DB) :
    ∀ (fuel : Nat) (tv vis : List Nat) (ns : List Node) (es : List Edge)
      (out : List Nat × List Node × List Edge),
      bfsAux db fuel tv vis ns es = some out →
      bfsAux db (fuel + 1) tv vis ns es = some out := by
  intro fuel
  induction fuel with
  | zero =>
    intro tv vis ns es out h
    cases tv with
    | nil =>
      rw [bfsAux_nil] at h
      rw [bfsAux_nil]
      exact h
    | cons nid rest =>
      rw [bfsAux_zero_cons] at h
      cases h
  | succ fuel ih =>
    intro tv vis ns es out h
    cases tv with
    | nil =>
      rw [bfsAux_nil] at h
      rw [bfsAux_nil]
      exact h
    | cons nid rest =>
      by_cases hmem : nid ∈ vis
      · rw [bfsAux_step_visited db fuel nid rest vis ns es hmem] at h
        rw [bfsAux_step_visited db (fuel + 1) nid rest vis ns es hmem]
        exact ih _ _ _ _ _ h
      · cases hany : ns.any (fun n => decide (n.id = nid)) with
        | true =>
          rw [bfsAux_step_cached db fuel nid rest vis ns es hmem hany] at h
          rw [bfsAux_step_cached db (fuel + 1) nid rest vis ns es hmem hany]
          exact ih _ _ _ _ _ h
        | false =>
          cases hfind : db.nodes.find? (fun n => decide (n.id = nid)) with
          | none =>
            rw [bfsAux_step_missing db fuel nid rest vis ns es hmem hany
              hfind] at h
            cases h
          | some r0 =>
            rw [bfsAux_step_new db fuel nid rest vis ns es r0 hmem hany
              hfind] at h
            rw [bfsAux_step_new db (fuel + 1) nid rest vis ns es r0 hmem hany
              hfind]
            exact ih _ _ _ _ _ h

theorem bfsAux_mono_le (db : DB) (f1 f2 : Nat) (hle : f1 ≤ f2)
    (tv vis : List Nat) (ns : List Node) (es : List Edge)
    (out : List Nat × List Node × List Edge)
    (h : bfsAux db f1 tv vis ns es = some out) :
    bfsAux db f2 tv vis ns es = some out := by
  induction f2, hle using Nat.le_induction with
  | base => exact h
  | succ f2 _ ih => exact bfsAux_mono db f2 tv vis ns es out ih

/-- The BFS of `store_subgraph` on a well-formed store with an existing root
id: it returns, the result is independent of any sufficient fuel, and the
postcondition holds. -/
theorem collect_master (db : DB) (root : Nat) (hwf : WF db)
    (hroot : ∃ n ∈ db.nodes, n.id = root) :
    ∃ out, collectSubgraph db root = some out ∧
      BfsPost db root [root] [] [] [] out ∧
      (∀ fuel, bfsMeasure db root [root] [] ≤ fuel →
        bfsAux db fuel [root] [] [] [] = some out) := by
  obtain ⟨-, -, -, -, -, -, -, hwf_e⟩ := hwf
  obtain ⟨out, heq, post⟩ := bfs_master db root hwf_e
    (bfsMeasure db root [root] []) [root] [] [] []
    (le_refl _)
    (by
      intro v hv
      rw [List.mem_singleton] at hv
      exact hv ▸ root_mem_candidates db root)
    (by
      intro v hv
      rw [List.mem_singleton] at hv
      exact hv ▸ hroot)
    (by
      intro v hv
      rw [List.mem_singleton] at hv
      exact hv ▸ Relation.ReflTransGen.refl)
    (by simp)
    (by simp)
    (by simp)
    (by simp)
    (by simp)
    (by simp)
    (by simp)
  exact ⟨out, heq, post,
    fun fuel hf => bfsAux_mono_le db _ fuel hf [root] [] [] [] out heq⟩

theorem node_id_inj (db : DB) (hnd : (db.nodes.map Node.id).Nodup)
    (m n : Node) (hm : m ∈ db.nodes) (hn : n ∈ db.nodes) (h : m.id = n.id) :
    m = n :=
  List.inj_on_of_nodup_map hnd hm hn h

/-- Claim C4: the collected subgraph is exactly the connected component of
the root under undirected edge reachability — every reachable node record,
and every edge row both of whose endpoints are reachable; nothing else. -/
theorem C4_bfs_component (db : DB) (root : Nat) (hwf : WF db)
    (hroot : ∃ n ∈ db.nodes, n.id = root) :
    ∃ v ns es, collectSubgraph db root = some (v, ns, es) ∧
      (∀ i, i ∈ v ↔ Reaches db root i) ∧
      (∀ n, n ∈ ns ↔ (n ∈ db.nodes ∧ Reaches db root n.id)) ∧
      (∀ e, e ∈ es ↔ (e ∈ db.edges ∧ Reaches db root e.from_id ∧
        Reaches db root e.to_id)) := by
  obtain ⟨out, heq, post, -⟩ := collect_master db root hwf hroot
  obtain ⟨v, ns, es⟩ := out
  have hrootv : root ∈ v := post.mono_tv root (List.mem_cons_self _ _)
  have hviff : ∀ i, i ∈ v ↔ Reaches db root i := by
    intro i
    constructor
    · exact post.sound i
    · exact fun hr => reaches_mem_closed db v post.closed root i hrootv hr
  refine ⟨v, ns, es, heq, hviff, ?_, ?_⟩
  · intro n
    constructor
    · intro hn
      obtain ⟨h1, h2⟩ := post.ns_sub n hn
      exact ⟨h1, (hviff n.id).mp h2⟩
    · rintro ⟨h1, h2⟩
      obtain ⟨m, hm, hmid⟩ := post.ns_cover n.id ((hviff n.id).mpr h2)
      have hmdb : m ∈ db.nodes := (post.ns_sub m hm).1
      obtain ⟨-, hndid, -, -, -, -, -, -⟩ := hwf
      have : m = n := node_id_inj db hndid m n hmdb h1 hmid
      exact this ▸ hm
  · intro e
    rw [post.es_iff e]
    constructor
    · rintro ⟨h1, h2⟩
      rcases h2 with h2 | h2
      · have hadj : adj db e.from_id e.to_id := ⟨e, h1, Or.inl ⟨rfl, rfl⟩⟩
        exact ⟨h1, (hviff _).mp h2, (hviff _).mp (post.closed _ h2 _ hadj)⟩
      · have hadj : adj db e.to_id e.from_id := ⟨e, h1, Or.inr ⟨rfl, rfl⟩⟩
        exact ⟨h1, (hviff _).mp (post.closed _ h2 _ hadj), (hviff _).mp h2⟩
    · rintro ⟨h1, h2, h3⟩
      exact ⟨h1, Or.inl ((hviff _).mpr h2)⟩

/-- Claim C9: on every finite local graph, cyclic or not, the BFS loop
terminates (any fuel at least the loop measure yields the same successful
result) and visits each node of the root's component exactly once. -/
theorem C9_bfs_termination (db : DB) (root : Nat) (hwf : WF db)
    (hroot : ∃ n ∈ db.nodes, n.id = root) :
    ∃ v ns es,
      (∀ fuel, bfsMeasure db root [root] [] ≤ fuel →
        bfsAux db fuel [root] [] [] [] = some (v, ns, es)) ∧
      v.Nodup ∧ (ns.map Node.id).Nodup ∧
      (∀ i, i ∈ v ↔ Reaches db root i) := by
  obtain ⟨out, heq, post, hstable⟩ := collect_master db root hwf hroot
  obtain ⟨v, ns, es⟩ := out
  have hrootv : root ∈ v := post.mono_tv root (List.mem_cons_self _ _)
  refine ⟨v, ns, es, hstable, post.vNodup, post.ns_idNodup, ?_⟩
  intro i
  constructor
  · exact post.sound i
  · exact fun hr => reaches_mem_closed db v post.closed root i hrootv hr

def dbC4 : DB :=
  ⟨[⟨1, "T", "S", "a", [], 0, 0⟩, ⟨2, "T", "S", "b", [], 0, 0⟩,
    ⟨3, "T", "S", "c", [], 0, 0⟩, ⟨4, "T", "S", "d", [], 0, 0⟩],
   [⟨1, 2, "e", 0⟩, ⟨2, 3, "e", 0⟩], 5, 0⟩

theorem C4_bfs_component_witness :
    ∃ v ns es, collectSubgraph dbC4 1 = some (v, ns, es) ∧
      (∀ i, i ∈ v ↔ Reaches dbC4 1 i) ∧
      (∀ n, n ∈ ns ↔ (n ∈ dbC4.nodes ∧ Reaches dbC4 1 n.id)) ∧
      (∀ e, e ∈ es ↔ (e ∈ dbC4.edges ∧ Reaches dbC4 1 e.from_id ∧
        Reaches dbC4 1 e.to_id)) :=
  C4_bfs_component dbC4 1 (by decide) (by decide)

def dbC9 : DB :=
  ⟨[⟨1, "T", "S", "a", [], 0, 0⟩, ⟨2, "T", "S", "b", [], 0, 0⟩,
    ⟨3, "T", "S", "c", [], 0, 0⟩],
   [⟨1, 2, "e", 0⟩, ⟨2, 3, "e", 0⟩, ⟨3, 1, "e", 0⟩], 4, 0⟩

theorem C9_bfs_termination_witness :
    ∃ v ns es,
      (∀ fuel, bfsMeasure dbC9 1 [1] [] ≤ fuel →
        bfsAux dbC9 fuel [1] [] [] [] = some (v, ns, es)) ∧
      v.Nodup ∧ (ns.map Node.id).Nodup ∧
      (∀ i, i ∈ v ↔ Reaches dbC9 1 i) :=
  C9_bfs_termination dbC9 1 (by decide) (by decide)

/-!
### The remote graph store and `store_subgraph`

The remote collaborator (the managed graph-database SDK) is not part of
this repository; it is modelled at the boundary the spec gives it (§6):
fetch-by-identity, create and update keyed by an identity derived from
`node_type`/`lookup_key` (the source uses `lookup_key` as the remote key
and `node_type` as the collection), and a batched edge-link operation per
relation type whose insert is idempotent per `(from, to)` pair.
`store_subgraph` itself is translated from
`GraphStorageHandler.store_subgraph`; note that its `get` call is wrapped
in a `try` that swallows every exception and treats the entity as absent,
while `create`, `update` and `batch_link_edges` failures propagate.
-/

structure RemoteEntity where
  collection : String
  key : String
  sub_type : String
  attributes : Attrs
deriving DecidableEq

structure Remote where
  entities : List RemoteEntity
  links : List (String × String × String)
deriving DecidableEq

def remoteEmpty : Remote := ⟨[], []⟩

inductive RemoteCall where
  | get (doc : String)
  | create (doc : String)
  | update (doc : String)
  | link (rel : String)
deriving DecidableEq

structure SyncTrace where
  creates : List String
  updates : List String
  linkBatches : List (String × List (String × String))
deriving DecidableEq

def entityKeyP (c k : String) (x : RemoteEntity) : Bool :=
  decide (x.collection = c ∧ x.key = k)

/-- Boundary model of the remote collaborator: fetch-by-identity. -/
def remoteGet (r : Remote) (c k : String) : Option RemoteEntity :=
  r.entities.find? (entityKeyP c k)

/-- Boundary model of the remote collaborator: update the attributes of the
entity named by the identity, preserving its other fields. -/
def remoteUpdate (r : Remote) (c k : String) (attrs : Attrs) : Remote :=
  { r with
    entities := r.entities.map (fun x =>
      if x.collection = c ∧ x.key = k then { x with attributes := attrs }
      else x) }

/-- Boundary model of the remote collaborator: create an entity under the
identity; the `lookup_key` is used as the remote key. -/
def remoteCreate (r : Remote) (c k st : String) (attrs : Attrs) : Remote :=
  { r with entities := r.entities ++ [⟨c, k, st, attrs⟩] }

/-- Boundary model of the remote collaborator: one edge-link insert,
idempotent per `(relation, from, to)`. -/
def linkInsert (r : Remote) (rel f t : String) : Remote :=
  if (rel, f, t) ∈ r.links then r
  else { r with links := r.links ++ [(rel, f, t)] }

/-- Boundary model of the remote collaborator: one batched link call. -/
def batchLink (r : Remote) (rel : String) (es : List (String × String)) :
    Remote :=
  es.foldl (fun acc p => linkInsert acc rel p.1 p.2) r

def docId (nt name : String) : String := nt ++ "/" ++ name

/-- Step 3 of `store_subgraph` for one collected node: try to fetch the
existing context (any exception is swallowed and treated as absent), then
update it or create it, and record the id→context mapping. -/
def nodeSync (fail : RemoteCall → Bool)
    (st : Remote × List (Nat × String × String) × SyncTrace) (rec : Node) :
    Except RemoteCall (Remote × List (Nat × String × String) × SyncTrace) :=
  let nt := rec.node_type
  let name := rec.lookup_key
  let doc := docId nt name
  let existing : Option RemoteEntity :=
    if fail (RemoteCall.get doc) then none else remoteGet st.1 nt name
  match existing with
  | some ent =>
    if fail (RemoteCall.update doc) then Except.error (RemoteCall.update doc)
    else
      Except.ok (remoteUpdate st.1 nt ent.key rec.data,
        st.2.1 ++ [(rec.id, (nt, ent.key))],
        { st.2.2 with updates := st.2.2.updates ++ [doc] })
  | none =>
    if fail (RemoteCall.create doc) then Except.error (RemoteCall.create doc)
    else
      Except.ok (remoteCreate st.1 nt name rec.sub_type rec.data,
        st.2.1 ++ [(rec.id, (nt, name))],
        { st.2.2 with creates := st.2.2.creates ++ [doc] })

def lookupMapping (m : List (Nat × String × String)) (i : Nat) :
    Option (String × String) :=
  (m.find? (fun x => decide (x.1 = i))).map (fun x => x.2)

/-- `links_by_rel.setdefault(rel_type, []).append(...)`: groups appear in
first-seen order, pairs append within their group. -/
def addLink (m : List (String × List (String × String))) (rel : String)
    (p : String × String) : List (String × List (String × String)) :=
  match m with
  | [] => [(rel, [p])]
  | g :: rest =>
    if g.1 = rel then (g.1, g.2 ++ [p]) :: rest
    else g :: addLink rest rel p

/-- Step 4 of `store_subgraph`, grouping: map each collected edge's
endpoints through the id→context mapping, skip edges with an unmapped
endpoint, and group the doc-id pairs by `edge_type`. -/
def groupLinks (m : List (Nat × String × String)) (es : List Edge) :
    List (String × List (String × String)) :=
  es.foldl (fun acc ed =>
    match lookupMapping m ed.from_id, lookupMapping m ed.to_id with
    | some fctx, some tctx =>
      addLink acc ed.edge_type (docId fctx.1 fctx.2, docId tctx.1 tctx.2)
    | _, _ => acc) []

/-- The per-group dedup (`seen` set keyed on the `(_from, _to)` pair). -/
def dedupPairs (ps : List (String × String)) : List (String × String) :=
  ps.foldl (fun acc p => if p ∈ acc then acc else acc ++ [p]) []

/-- Step 4 of `store_subgraph`, writing: dedup one group and send it as one
batched link call. -/
def linkSync (fail : RemoteCall → Bool) (st : Remote × SyncTrace)
    (g : String × List (String × String)) :
    Except RemoteCall (Remote × SyncTrace) :=
  let uniq := dedupPairs g.2
  if fail (RemoteCall.link g.1) then Except.error (RemoteCall.link g.1)
  else
    Except.ok (batchLink st.1 g.1 uniq,
      { st.2 with linkBatches := st.2.linkBatches ++ [(g.1, uniq)] })

inductive SyncErr where
  | notFound
  | bfsFailed
  | remote (c : RemoteCall)
deriving DecidableEq

/-- `GraphStorageHandler.store_subgraph`: locate the root by `lookup_key`
alone, BFS-collect the component, upsert the collected nodes remotely,
then bulk-link the deduplicated edges; returns the root's remote context
handle `(collection, key)`. -/
def store_subgraph (db : DB) (r : Remote) (fail : RemoteCall → Bool)
    (lookup_key : String) :
    Except SyncErr (Remote × SyncTrace × (String × String)) :=
  match db.nodes.find? (fun n => decide (n.lookup_key = lookup_key)) with
  | none => Except.error SyncErr.notFound
  | some root =>
    match collectSubgraph db root.id with
    | none => Except.error SyncErr.bfsFailed
    | some (_, ns, es) =>
      match ns.foldlM (nodeSync fail) (r, [], ⟨[], [], []⟩) with
      | Except.error c => Except.error (SyncErr.remote c)
      | Except.ok st1 =>
        match (groupLinks st1.2.1 es).foldlM (linkSync fail)
            (st1.1, st1.2.2) with
        | Except.error c => Except.error (SyncErr.remote c)
        | Except.ok st2 =>
          match lookupMapping st1.2.1 root.id with
          | none => Except.error SyncErr.notFound
          | some ctx => Except.ok (st2.1, st2.2, ctx)

/-- The never-failing remote oracle. -/
def noFailR : RemoteCall → Bool := fun _ => false

/-! ### Lemmas about the remote boundary model -/

theorem find?_append_some {α : Type} (p : α → Bool) (l₁ l₂ : List α) (a : α)
    (h : l₁.find? p = some a) : (l₁ ++ l₂).find? p = some a := by
  induction l₁ with
  | nil => simp at h
  | cons b bs ih =>
    rw [List.find?_cons] at h
    cases hp : p b
    · rw [hp] at h
      rw [List.cons_append, List.find?_cons, hp]
      exact ih h
    · rw [hp] at h
      rw [List.cons_append, List.find?_cons, hp]
      exact h

theorem entityKeyP_updFn (c k c' k' : String) (attrs : Attrs)
    (x : RemoteEntity) :
    entityKeyP c' k'
      (if x.collection = c ∧ x.key = k then { x with attributes := attrs }
        else x) = entityKeyP c' k' x := by
  split <;> simp [entityKeyP]

theorem remoteGet_update (r : Remote) (c k c' k' : String) (attrs : Attrs) :
    remoteGet (remoteUpdate r c k attrs) c' k' =
      (remoteGet r c' k').map (fun x =>
        if x.collection = c ∧ x.key = k then { x with attributes := attrs }
        else x) := by
  unfold remoteGet remoteUpdate
  exact find?_map_pred _ _ (entityKeyP_updFn c k c' k' attrs) r.entities

theorem remoteUpdate_id (r : Remote) (c k : String) (attrs : Attrs)
    (h : ∀ x ∈ r.entities, entityKeyP c k x = true → x.attributes = attrs) :
    remoteUpdate r c k attrs = r := by
  unfold remoteUpdate
  have hmap : r.entities.map (fun x =>
      if x.collection = c ∧ x.key = k then { x with attributes := attrs }
      else x) = r.entities := by
    have h1 : r.entities.map (fun x =>
        if x.collection = c ∧ x.key = k then { x with attributes := attrs }
        else x) = r.entities.map id := by
      apply List.map_congr_left
      intro x hx
      by_cases hc : x.collection = c ∧ x.key = k
      · rw [if_pos hc, ← h x hx (by simp [entityKeyP, hc])]
        rfl
      · rw [if_neg hc]
        rfl
    rw [h1, List.map_id]
  rw [hmap]

theorem remoteGet_key (r : Remote) (c k : String) (ent : RemoteEntity)
    (h : remoteGet r c k = some ent) :
    ent.collection = c ∧ ent.key = k ∧ ent ∈ r.entities := by
  have h1 := List.find?_some h
  have h2 := List.mem_of_find?_eq_some h
  simp [entityKeyP] at h1
  exact ⟨h1.1, h1.2, h2⟩

theorem remoteGet_create_other (r : Remote) (c k st : String) (attrs : Attrs)
    (c' k' : String) (h : ¬(c = c' ∧ k = k')) :
    remoteGet (remoteCreate r c k st attrs) c' k' = remoteGet r c' k' := by
  unfold remoteGet remoteCreate
  cases hf : r.entities.find? (entityKeyP c' k') with
  | some ent => exact find?_append_some _ _ _ _ hf
  | none =>
    rw [find?_append_none _ _ _ hf, List.find?_cons]
    have : entityKeyP c' k' ⟨c, k, st, attrs⟩ = false := by
      simp only [entityKeyP]
      exact decide_eq_false h
    rw [this]
    rfl

/-- An entity under this identity exists remotely and every entity under it
carries exactly these attributes. -/
def EntityOK (r : Remote) (rec : Node) : Prop :=
  (∃ x ∈ r.entities, entityKeyP rec.node_type rec.lookup_key x = true) ∧
  (∀ x ∈ r.entities, entityKeyP rec.node_type rec.lookup_key x = true →
    x.attributes = rec.data)

theorem entityOK_update (r : Remote) (c k : String) (attrs : Attrs)
    (rec : Node) (h : EntityOK r rec)
    (hne : ¬(c = rec.node_type ∧ k = rec.lookup_key)) :
    EntityOK (remoteUpdate r c k attrs) rec := by
  obtain ⟨⟨x, hx, hkx⟩, hall⟩ := h
  constructor
  · refine ⟨_, List.mem_map_of_mem _ hx, ?_⟩
    rw [entityKeyP_updFn]
    exact hkx
  · intro y hy hky
    obtain ⟨x', hx', hyx'⟩ := List.mem_map.mp hy
    have hky' : entityKeyP rec.node_type rec.lookup_key x' = true := by
      rw [← hyx', entityKeyP_updFn] at hky
      exact hky
    by_cases hc : x'.collection = c ∧ x'.key = k
    · exfalso
      simp only [entityKeyP, decide_eq_true_eq] at hky'
      exact hne ⟨hc.1.symm.trans hky'.1, hc.2.symm.trans hky'.2⟩
    · rw [← hyx', if_neg hc]
      exact hall x' hx' hky'

theorem entityOK_update_self (r : Remote) (rec : Node)
    (hex : ∃ x ∈ r.entities,
      entityKeyP rec.node_type rec.lookup_key x = true) :
    EntityOK (remoteUpdate r rec.node_type rec.lookup_key rec.data) rec := by
  obtain ⟨x, hx, hkx⟩ := hex
  constructor
  · refine ⟨_, List.mem_map_of_mem _ hx, ?_⟩
    rw [entityKeyP_updFn]
    exact hkx
  · intro y hy hky
    obtain ⟨x', hx', hyx'⟩ := List.mem_map.mp hy
    rw [← hyx'] at hky ⊢
    rw [entityKeyP_updFn] at hky
    have hc : x'.collection = rec.node_type ∧ x'.key = rec.lookup_key := by
      simpa [entityKeyP] using hky
    rw [if_pos hc]

theorem entityOK_create (r : Remote) (c k st : String) (attrs : Attrs)
    (rec : Node) (h : EntityOK r rec)
    (hne : ¬(c = rec.node_type ∧ k = rec.lookup_key)) :
    EntityOK (remoteCreate r c k st attrs) rec := by
  obtain ⟨⟨x, hx, hkx⟩, hall⟩ := h
  constructor
  · exact ⟨x, List.mem_append_left _ hx, hkx⟩
  · intro y hy hky
    rcases List.mem_append.mp hy with h1 | h1
    · exact hall y h1 hky
    · rw [List.mem_singleton] at h1
      subst h1
      simp only [entityKeyP, decide_eq_true_eq] at hky
      exact absurd ⟨hky.1, hky.2⟩ hne

theorem entityOK_create_self (r : Remote) (rec : Node) (st : String)
    (habs : remoteGet r rec.node_type rec.lookup_key = none) :
    EntityOK
      (remoteCreate r rec.node_type rec.lookup_key st rec.data) rec := by
  constructor
  · refine ⟨⟨rec.node_type, rec.lookup_key, st, rec.data⟩,
      List.mem_append_right _ (List.mem_singleton.mpr rfl), ?_⟩
    simp [entityKeyP]
  · intro y hy hky
    rcases List.mem_append.mp hy with h1 | h1
    · exact absurd hky (by simpa using List.find?_eq_none.mp habs y h1)
    · rw [List.mem_singleton] at h1
      subst h1
      rfl

def stdMap (ns : List Node) : List (Nat × String × String) :=
  ns.map (fun rec => (rec.id, (rec.node_type, rec.lookup_key)))

theorem nodeSync_step_found (st : Remote × List (Nat × String × String) ×
    SyncTrace) (rec : Node) (ent : RemoteEntity)
    (hget : remoteGet st.1 rec.node_type rec.lookup_key = some ent) :
    nodeSync noFailR st rec = Except.ok
      (remoteUpdate st.1 rec.node_type ent.key rec.data,
       st.2.1 ++ [(rec.id, (rec.node_type, ent.key))],
       { st.2.2 with updates :=
          st.2.2.updates ++ [docId rec.node_type rec.lookup_key] }) := by
  unfold nodeSync
  simp [noFailR, hget]

theorem nodeSync_step_absent (st : Remote × List (Nat × String × String) ×
    SyncTrace) (rec : Node)
    (hget : remoteGet st.1 rec.node_type rec.lookup_key = none) :
    nodeSync noFailR st rec = Except.ok
      (remoteCreate st.1 rec.node_type rec.lookup_key rec.sub_type rec.data,
       st.2.1 ++ [(rec.id, (rec.node_type, rec.lookup_key))],
       { st.2.2 with creates :=
          st.2.2.creates ++ [docId rec.node_type rec.lookup_key] }) := by
  unfold nodeSync
  simp [noFailR, hget]

/-- The node-sync pass with no remote failures, from an arbitrary remote
state: it succeeds, records the standard id→`(node_type, lookup_key)`
mapping, leaves every processed node's remote entity carrying exactly its
local data, and the union of creates and updates is exactly the processed
doc ids. -/
theorem nodeSync_run1 (ns : List Node) :
    ∀ (r : Remote) (m : List (Nat × String × String)) (t : SyncTrace),
    (ns.map (fun rec => (rec.node_type, rec.lookup_key))).Nodup →
    ∃ (r' : Remote) (t' : SyncTrace),
      ns.foldlM (nodeSync noFailR) (r, m, t) =
        Except.ok (r', m ++ stdMap ns, t') ∧
      (∀ rec ∈ ns, EntityOK r' rec) ∧
      (∀ q : Node,
        (q.node_type, q.lookup_key) ∉
          ns.map (fun rec => (rec.node_type, rec.lookup_key)) →
        EntityOK r q → EntityOK r' q) ∧
      (∀ d, (d ∈ t'.creates ∨ d ∈ t'.updates) ↔
        ((d ∈ t.creates ∨ d ∈ t.updates) ∨
          ∃ rec ∈ ns, d = docId rec.node_type rec.lookup_key)) ∧
      t'.linkBatches = t.linkBatches := by
  induction ns with
  | nil =>
    intro r m t _
    refine ⟨r, t, by simp [stdMap]; rfl, by simp, fun q _ h => h, by simp,
      rfl⟩
  | cons rec rest ih =>
    intro r m t hkeys
    rcases List.pairwise_cons.mp hkeys with ⟨hkne, hkrest⟩
    have hknotin : (rec.node_type, rec.lookup_key) ∉
        rest.map (fun q => (q.node_type, q.lookup_key)) := by
      intro hmem
      obtain ⟨q, hq, hqe⟩ := List.mem_map.mp hmem
      exact (hkne _ (List.mem_map_of_mem _ hq)) hqe.symm
    rw [List.foldlM_cons]
    cases hget : remoteGet r rec.node_type rec.lookup_key with
    | some ent =>
      obtain ⟨hcoll, hkey, hentm⟩ := remoteGet_key r _ _ ent hget
      rw [nodeSync_step_found (r, m, t) rec ent hget]
      have hok : EntityOK
          (remoteUpdate r rec.node_type ent.key rec.data) rec := by
        rw [hkey]
        exact entityOK_update_self r rec
          ⟨ent, hentm, by simp [entityKeyP, hcoll, hkey]⟩
      obtain ⟨r', t', heq, hall, hpres, htr, hlb⟩ :=
        ih (remoteUpdate r rec.node_type ent.key rec.data)
          (m ++ [(rec.id, (rec.node_type, ent.key))])
          { t with updates :=
              t.updates ++ [docId rec.node_type rec.lookup_key] } hkrest
      refine ⟨r', t', ?_, ?_, ?_, ?_, hlb⟩
      · show rest.foldlM (nodeSync noFailR) _ = _
        rw [heq, hkey]
        rw [List.append_assoc]
        rfl
      · intro rc hrc
        rcases List.mem_cons.mp hrc with h1 | h1
        · subst h1
          exact hpres rc hknotin hok
        · exact hall rc h1
      · intro q hq hOK
        have hq1 : ¬((q.node_type, q.lookup_key) =
            (rec.node_type, rec.lookup_key)) := by
          intro hc
          exact hq (by rw [List.map_cons]; exact hc ▸ List.mem_cons_self _ _)
        have hq2 : (q.node_type, q.lookup_key) ∉
            rest.map (fun x => (x.node_type, x.lookup_key)) := by
          intro hc
          exact hq (by rw [List.map_cons]; exact List.mem_cons_of_mem _ hc)
        refine hpres q hq2 ?_
        apply entityOK_update r rec.node_type ent.key rec.data q hOK
        intro hc
        apply hq1
        rw [Prod.ext_iff]
        exact ⟨hc.1.symm, by rw [← hc.2, hkey]⟩
      · intro d
        rw [htr d]
        constructor
        · rintro ((h1 | h1) | ⟨q, hq, hd⟩)
          · exact Or.inl (Or.inl h1)
          · rcases List.mem_append.mp h1 with h2 | h2
            · exact Or.inl (Or.inr h2)
            · rw [List.mem_singleton] at h2
              exact Or.inr ⟨rec, List.mem_cons_self _ _, h2⟩
          · exact Or.inr ⟨q, List.mem_cons_of_mem _ hq, hd⟩
        · rintro ((h1 | h1) | ⟨q, hq, hd⟩)
          · exact Or.inl (Or.inl h1)
          · exact Or.inl (Or.inr (List.mem_append_left _ h1))
          · rcases List.mem_cons.mp hq with h2 | h2
            · subst h2
              exact Or.inl (Or.inr (List.mem_append_right _
                (List.mem_singleton.mpr hd)))
            · exact Or.inr ⟨q, h2, hd⟩
    | none =>
      rw [nodeSync_step_absent (r, m, t) rec hget]
      have hok : EntityOK (remoteCreate r rec.node_type rec.lookup_key
          rec.sub_type rec.data) rec :=
        entityOK_create_self r rec rec.sub_type hget
      obtain ⟨r', t', heq, hall, hpres, htr, hlb⟩ :=
        ih (remoteCreate r rec.node_type rec.lookup_key rec.sub_type
            rec.data)
          (m ++ [(rec.id, (rec.node_type, rec.lookup_key))])
          { t with creates :=
              t.creates ++ [docId rec.node_type rec.lookup_key] } hkrest
      refine ⟨r', t', ?_, ?_, ?_, ?_, hlb⟩
      · show rest.foldlM (nodeSync noFailR) _ = _
        rw [heq, List.append_assoc]
        rfl
      · intro rc hrc
        rcases List.mem_cons.mp hrc with h1 | h1
        · subst h1
          exact hpres rc hknotin hok
        · exact hall rc h1
      · intro q hq hOK
        have hq1 : ¬((q.node_type, q.lookup_key) =
            (rec.node_type, rec.lookup_key)) := by
          intro hc
          exact hq (by rw [List.map_cons]; exact hc ▸ List.mem_cons_self _ _)
        have hq2 : (q.node_type, q.lookup_key) ∉
            rest.map (fun x => (x.node_type, x.lookup_key)) := by
          intro hc
          exact hq (by rw [List.map_cons]; exact List.mem_cons_of_mem _ hc)
        refine hpres q hq2 ?_
        apply entityOK_create r rec.node_type rec.lookup_key rec.sub_type
          rec.data q hOK
        intro hc
        apply hq1
        rw [Prod.ext_iff]
        exact ⟨hc.1.symm, hc.2.symm⟩
      · intro d
        rw [htr d]
        constructor
        · rintro ((h1 | h1) | ⟨q, hq, hd⟩)
          · rcases List.mem_append.mp h1 with h2 | h2
            · exact Or.inl (Or.inl h2)
            · rw [List.mem_singleton] at h2
              exact Or.inr ⟨rec, List.mem_cons_self _ _, h2⟩
          · exact Or.inl (Or.inr h1)
          · exact Or.inr ⟨q, List.mem_cons_of_mem _ hq, hd⟩
        · rintro ((h1 | h1) | ⟨q, hq, hd⟩)
          · exact Or.inl (Or.inl (List.mem_append_left _ h1))
          · exact Or.inl (Or.inr h1)
          · rcases List.mem_cons.mp hq with h2 | h2
            · subst h2
              exact Or.inl (Or.inl (List.mem_append_right _
                (List.mem_singleton.mpr hd)))
            · exact Or.inr ⟨q, h2, hd⟩

/-- The node-sync pass over a remote state where every processed node's
entity already exists with exactly its local data (as after a completed
prior run): every upsert is an update, nothing is created, and the remote
state is untouched. -/
theorem nodeSync_run2 (ns : List Node) :
    ∀ (r : Remote) (m : List (Nat × String × String)) (t : SyncTrace),
    (∀ rec ∈ ns, EntityOK r rec) →
    ns.foldlM (nodeSync noFailR) (r, m, t) =
      Except.ok (r, m ++ stdMap ns,
        { creates := t.creates,
          updates := t.updates ++
            ns.map (fun rec => docId rec.node_type rec.lookup_key),
          linkBatches := t.linkBatches }) := by
  induction ns with
  | nil =>
    intro r m t _
    simp [stdMap]
    rfl
  | cons rec rest ih =>
    intro r m t hOK
    rw [List.foldlM_cons]
    obtain ⟨⟨x, hx, hkx⟩, hall⟩ := hOK rec (List.mem_cons_self _ _)
    cases hget : remoteGet r rec.node_type rec.lookup_key with
    | none =>
      exfalso
      have := List.find?_eq_none.mp hget x hx
      exact this hkx
    | some ent =>
      obtain ⟨hcoll, hkey, hentm⟩ := remoteGet_key r _ _ ent hget
      rw [nodeSync_step_found (r, m, t) rec ent hget]
      have hupd : remoteUpdate r rec.node_type ent.key rec.data = r := by
        rw [hkey]
        exact remoteUpdate_id r _ _ _ hall
      show rest.foldlM (nodeSync noFailR) _ = _
      rw [hupd]
      rw [ih r (m ++ [(rec.id, (rec.node_type, ent.key))])
        { t with updates :=
            t.updates ++ [docId rec.node_type rec.lookup_key] }
        (fun q hq => hOK q (List.mem_cons_of_mem _ hq))]
      rw [hkey, List.append_assoc, List.append_assoc]
      rfl

def applyBatch (acc : Remote) (g : String × List (String × String)) :
    Remote :=
  batchLink acc g.1 (dedupPairs g.2)

/-- The link pass with no remote failures: it succeeds, applies every
deduplicated batch, and records exactly the deduplicated batches in the
trace. -/
theorem linkSync_fold (gs : List (String × List (String × String))) :
    ∀ (r : Remote) (t : SyncTrace),
    gs.foldlM (linkSync noFailR) (r, t) =
      Except.ok (gs.foldl applyBatch r,
        { t with linkBatches := t.linkBatches ++
            gs.map (fun g => (g.1, dedupPairs g.2)) }) := by
  induction gs with
  | nil =>
    intro r t
    simp
    rfl
  | cons g gs ih =>
    intro r t
    rw [List.foldlM_cons]
    have hstep : linkSync noFailR (r, t) g = Except.ok
        (batchLink r g.1 (dedupPairs g.2),
         { t with linkBatches := t.linkBatches ++ [(g.1, dedupPairs g.2)] }) := by
      unfold linkSync
      simp [noFailR]
    rw [hstep]
    show gs.foldlM (linkSync noFailR) _ = _
    rw [ih]
    rw [List.append_assoc]
    rfl

theorem dedupPairs_nodup (ps : List (String × String)) :
    (dedupPairs ps).Nodup := by
  unfold dedupPairs
  suffices h : ∀ acc : List (String × String), acc.Nodup →
      (ps.foldl (fun acc p => if p ∈ acc then acc else acc ++ [p])
        acc).Nodup by
    exact h [] (by simp)
  induction ps with
  | nil => intro acc h; exact h
  | cons p ps ih =>
    intro acc h
    rw [List.foldl_cons]
    by_cases hp : p ∈ acc
    · rw [if_pos hp]
      exact ih acc h
    · rw [if_neg hp]
      refine ih _ ?_
      rw [List.nodup_append]
      exact ⟨h, by simp, by
        intro x hx
        simp only [List.mem_singleton]
        intro hxp
        exact hp (hxp ▸ hx)⟩

theorem linkInsert_links_sub (r : Remote) (rel f t : String)
    (x : String × String × String) (h : x ∈ r.links) :
    x ∈ (linkInsert r rel f t).links := by
  unfold linkInsert
  split
  · exact h
  · exact List.mem_append_left _ h

theorem linkInsert_self (r : Remote) (rel f t : String) :
    (rel, f, t) ∈ (linkInsert r rel f t).links := by
  unfold linkInsert
  split
  · next h => exact h
  · exact List.mem_append_right _ (List.mem_singleton.mpr rfl)

theorem batchLink_links_sub (rel : String) (ps : List (String × String)) :
    ∀ (r : Remote) (x : String × String × String), x ∈ r.links →
      x ∈ (batchLink r rel ps).links := by
  induction ps with
  | nil => exact fun r x h => h
  | cons p ps ih =>
    intro r x h
    have hstep : batchLink r rel (p :: ps) =
        batchLink (linkInsert r rel p.1 p.2) rel ps := rfl
    rw [hstep]
    exact ih _ x (linkInsert_links_sub r rel p.1 p.2 x h)

theorem batchLink_mem (rel : String) (ps : List (String × String)) :
    ∀ (r : Remote) (p : String × String), p ∈ ps →
      (rel, p.1, p.2) ∈ (batchLink r rel ps).links := by
  induction ps with
  | nil =>
    intro r p h
    simp at h
  | cons q qs ih =>
    intro r p h
    have hstep : batchLink r rel (q :: qs) =
        batchLink (linkInsert r rel q.1 q.2) rel qs := rfl
    rw [hstep]
    rcases List.mem_cons.mp h with h1 | h1
    · subst h1
      exact batchLink_links_sub rel qs _ _ (linkInsert_self r rel p.1 p.2)
    · exact ih _ p h1

theorem batchLink_noop (r : Remote) (rel : String)
    (ps : List (String × String))
    (h : ∀ p ∈ ps, (rel, p.1, p.2) ∈ r.links) : batchLink r rel ps = r := by
  unfold batchLink
  induction ps with
  | nil => rfl
  | cons p ps ih =>
    rw [List.foldl_cons]
    have hins : linkInsert r rel p.1 p.2 = r := by
      unfold linkInsert
      rw [if_pos (h p (List.mem_cons_self _ _))]
    rw [hins]
    exact ih (fun q hq => h q (List.mem_cons_of_mem _ hq))

theorem batchLink_entities (r : Remote) (rel : String)
    (ps : List (String × String)) :
    (batchLink r rel ps).entities = r.entities := by
  unfold batchLink
  induction ps generalizing r with
  | nil => rfl
  | cons p ps ih =>
    rw [List.foldl_cons, ih]
    unfold linkInsert
    split <;> rfl

theorem linkFold_entities (gs : List (String × List (String × String)))
    (r : Remote) : (gs.foldl applyBatch r).entities = r.entities := by
  induction gs generalizing r with
  | nil => rfl
  | cons g gs ih =>
    rw [List.foldl_cons, ih]
    exact batchLink_entities _ _ _

theorem linkFold_links_sub (gs : List (String × List (String × String)))
    (r : Remote) (x : String × String × String) (h : x ∈ r.links) :
    x ∈ (gs.foldl applyBatch r).links := by
  induction gs generalizing r with
  | nil => exact h
  | cons g gs ih =>
    rw [List.foldl_cons]
    exact ih _ (batchLink_links_sub _ _ _ _ h)

theorem linkFold_mem (gs : List (String × List (String × String))) :
    ∀ (r : Remote) (g : String × List (String × String)), g ∈ gs →
      ∀ p ∈ dedupPairs g.2,
      (g.1, p.1, p.2) ∈ (gs.foldl applyBatch r).links := by
  induction gs with
  | nil =>
    intro r g hg
    simp at hg
  | cons g0 gs ih =>
    intro r g hg p hp
    rw [List.foldl_cons]
    rcases List.mem_cons.mp hg with h1 | h1
    · subst h1
      exact linkFold_links_sub gs _ _
        (batchLink_mem g.1 (dedupPairs g.2) r p hp)
    · exact ih _ g h1 p hp

theorem linkFold_noop (gs : List (String × List (String × String)))
    (r : Remote)
    (h : ∀ g ∈ gs, ∀ p ∈ dedupPairs g.2, (g.1, p.1, p.2) ∈ r.links) :
    gs.foldl applyBatch r = r := by
  induction gs with
  | nil => rfl
  | cons g gs ih =>
    rw [List.foldl_cons]
    have hb : applyBatch r g = r :=
      batchLink_noop r g.1 (dedupPairs g.2)
        (fun p hp => h g (List.mem_cons_self _ _) p hp)
    rw [hb]
    exact ih (fun g' hg' => h g' (List.mem_cons_of_mem _ hg'))

theorem entityOK_congr (r r' : Remote) (h : r'.entities = r.entities)
    (rec : Node) (hOK : EntityOK r rec) : EntityOK r' rec := by
  unfold EntityOK
  rw [h]
  exact hOK

/-- Collapsing the match chain of `store_subgraph` given the outcome of each
phase. -/
theorem store_subgraph_eq_ok (db : DB) (r : Remote) (fail : RemoteCall → Bool)
    (lk : String) (n0 : Node) (v : List Nat) (ns : List Node) (es : List Edge)
    (st1 : Remote × List (Nat × String × String) × SyncTrace)
    (st2 : Remote × SyncTrace) (ctx : String × String)
    (hfind : db.nodes.find? (fun n => decide (n.lookup_key = lk)) = some n0)
    (hcol : collectSubgraph db n0.id = some (v, ns, es))
    (hnode : ns.foldlM (nodeSync fail) (r, [], ⟨[], [], []⟩) = Except.ok st1)
    (hlink : (groupLinks st1.2.1 es).foldlM (linkSync fail)
      (st1.1, st1.2.2) = Except.ok st2)
    (hctx : lookupMapping st1.2.1 n0.id = some ctx) :
    store_subgraph db r fail lk = Except.ok (st2.1, st2.2, ctx) := by
  simp only [store_subgraph, hfind, hcol, hnode, hlink, hctx]

/-- One complete `store_subgraph` run with no remote failures, from an
arbitrary remote state: it succeeds, and afterwards every collected node's
remote entity carries exactly its local data, the creates/updates trace is
exactly the collected doc ids, the link batches are the deduplicated
groups, and all their pairs are present remotely. -/
theorem store_subgraph_run1 (db : DB) (r0 : Remote) (lk : String)
    (hwf : WF db) (n0 : Node)
    (hfind : db.nodes.find? (fun n => decide (n.lookup_key = lk)) = some n0) :
    ∃ (v : List Nat) (ns : List Node) (es : List Edge) (r1 : Remote)
      (t1 : SyncTrace) (ctx : String × String),
      collectSubgraph db n0.id = some (v, ns, es) ∧
      BfsPost db n0.id [n0.id] [] [] [] (v, ns, es) ∧
      store_subgraph db r0 noFailR lk = Except.ok (r1, t1, ctx) ∧
      (∀ rec ∈ ns, EntityOK r1 rec) ∧
      (∀ d, (d ∈ t1.creates ∨ d ∈ t1.updates) ↔
        ∃ rec ∈ ns, d = docId rec.node_type rec.lookup_key) ∧
      t1.linkBatches = (groupLinks (stdMap ns) es).map
        (fun g => (g.1, dedupPairs g.2)) ∧
      (∀ g ∈ groupLinks (stdMap ns) es, ∀ p ∈ dedupPairs g.2,
        (g.1, p.1, p.2) ∈ r1.links) ∧
      lookupMapping (stdMap ns) n0.id = some ctx := by
  have hn0m : n0 ∈ db.nodes := List.mem_of_find?_eq_some hfind
  obtain ⟨out, hcol, post, -⟩ := collect_master db n0.id hwf ⟨n0, hn0m, rfl⟩
  obtain ⟨v, ns, es⟩ := out
  have hnsdb : ∀ m ∈ ns, m ∈ db.nodes := fun m hm => (post.ns_sub m hm).1
  have hnsnd : ns.Nodup := List.Nodup.of_map _ post.ns_idNodup
  have hkeys : (ns.map (fun rec => (rec.node_type, rec.lookup_key))).Nodup := by
    refine List.Nodup.map_on ?_ hnsnd
    intro x hx y hy hxy
    exact List.inj_on_of_nodup_map hwf.1 (hnsdb x hx) (hnsdb y hy) hxy
  obtain ⟨r1', t1', hnodeeq, hallOK, hpres, htr, hlb⟩ :=
    nodeSync_run1 ns r0 [] ⟨[], [], []⟩ hkeys
  have hlink := linkSync_fold (groupLinks (stdMap ns) es) r1' t1'
  have hrootv : n0.id ∈ v := post.mono_tv n0.id (List.mem_cons_self _ _)
  obtain ⟨mrec, hmrec, hmid⟩ := post.ns_cover n0.id hrootv
  have hctxex : ∃ ctx, lookupMapping (stdMap ns) n0.id = some ctx := by
    unfold lookupMapping
    cases hf : (stdMap ns).find? (fun x => decide (x.1 = n0.id)) with
    | some e => exact ⟨e.2, rfl⟩
    | none =>
      exfalso
      have hm : (mrec.id, (mrec.node_type, mrec.lookup_key)) ∈ stdMap ns :=
        List.mem_map_of_mem _ hmrec
      have := List.find?_eq_none.mp hf _ hm
      simp [hmid] at this
  obtain ⟨ctx, hctx⟩ := hctxex
  refine ⟨v, ns, es, (groupLinks (stdMap ns) es).foldl applyBatch r1',
    { t1' with linkBatches := t1'.linkBatches ++
        (groupLinks (stdMap ns) es).map (fun g => (g.1, dedupPairs g.2)) },
    ctx, hcol, post, ?_, ?_, ?_, ?_, ?_, hctx⟩
  · exact store_subgraph_eq_ok db r0 noFailR lk n0 v ns es
      (r1', stdMap ns, t1') _ ctx hfind hcol hnodeeq hlink hctx
  · intro rec hrec
    exact entityOK_congr _ _ (linkFold_entities _ r1') rec (hallOK rec hrec)
  · intro d
    have h := htr d
    simp only [List.not_mem_nil, false_or, or_false] at h
    exact h
  · rw [hlb]
    rfl
  · intro g hg p hp
    exact linkFold_mem _ r1' g hg p hp

/-- Claim C3: `store_subgraph` is idempotent against the remote store — a
second run over unchanged local state returns the same remote state it
received (creates become updates, link inserts become no-ops), performs
zero creates, returns the same root handle, and every edge-link batch of
either run is free of duplicate `(from, to)` pairs. -/
theorem C3_store_subgraph_idempotent (db : DB) (r0 : Remote) (lk : String)
    (hwf : WF db) (hroot : ∃ n ∈ db.nodes, n.lookup_key = lk) :
    ∃ r1 t1 ctx t2,
      store_subgraph db r0 noFailR lk = Except.ok (r1, t1, ctx) ∧
      store_subgraph db r1 noFailR lk = Except.ok (r1, t2, ctx) ∧
      t2.creates = [] ∧
      (∀ b ∈ t1.linkBatches, b.2.Nodup) ∧
      (∀ b ∈ t2.linkBatches, b.2.Nodup) := by
  obtain ⟨n, hn, hnlk⟩ := hroot
  cases hfind : db.nodes.find? (fun m => decide (m.lookup_key = lk)) with
  | none =>
    exfalso
    have := List.find?_eq_none.mp hfind n hn
    simp [hnlk] at this
  | some n0 =>
  obtain ⟨v, ns, es, r1, t1, ctx, hcol, post, hrun1, hOK, htr1, hlb1,
    hlinks1, hctx⟩ := store_subgraph_run1 db r0 lk hwf n0 hfind
  have hnode2 := nodeSync_run2 ns r1 [] ⟨[], [], []⟩ hOK
  have hlink2 := linkSync_fold (groupLinks (stdMap ns) es) r1
    { creates := [],
      updates := [] ++ ns.map (fun rec => docId rec.node_type rec.lookup_key),
      linkBatches := [] }
  have hnoop : (groupLinks (stdMap ns) es).foldl applyBatch r1 = r1 :=
    linkFold_noop _ r1 hlinks1
  rw [hnoop] at hlink2
  refine ⟨r1, t1, ctx,
    { creates := [],
      updates := [] ++ ns.map (fun rec => docId rec.node_type rec.lookup_key),
      linkBatches := [] ++ (groupLinks (stdMap ns) es).map
        (fun g => (g.1, dedupPairs g.2)) },
    hrun1, ?_, rfl, ?_, ?_⟩
  · exact store_subgraph_eq_ok db r1 noFailR lk n0 v ns es
      (r1, [] ++ stdMap ns,
        { creates := [],
          updates := [] ++
            ns.map (fun rec => docId rec.node_type rec.lookup_key),
          linkBatches := [] })
      (r1,
        { creates := [],
          updates := [] ++
            ns.map (fun rec => docId rec.node_type rec.lookup_key),
          linkBatches := [] ++ (groupLinks (stdMap ns) es).map
            (fun g => (g.1, dedupPairs g.2)) })
      ctx hfind hcol hnode2 hlink2 hctx
  · intro b hb
    rw [hlb1] at hb
    obtain ⟨g, hg, hbg⟩ := List.mem_map.mp hb
    rw [← hbg]
    exact dedupPairs_nodup g.2
  · intro b hb
    simp only [List.nil_append] at hb
    obtain ⟨g, hg, hbg⟩ := List.mem_map.mp hb
    rw [← hbg]
    exact dedupPairs_nodup g.2

def dbC3 : DB :=
  ⟨[⟨1, "T", "S", "a", [("x", "1")], 0, 0⟩, ⟨2, "T", "S", "b", [], 0, 0⟩],
   [⟨1, 2, "rel", 0⟩], 3, 0⟩

theorem C3_store_subgraph_idempotent_witness :
    ∃ r1 t1 ctx t2,
      store_subgraph dbC3 remoteEmpty noFailR "a" =
        Except.ok (r1, t1, ctx) ∧
      store_subgraph dbC3 r1 noFailR "a" = Except.ok (r1, t2, ctx) ∧
      t2.creates = [] ∧
      (∀ b ∈ t1.linkBatches, b.2.Nodup) ∧
      (∀ b ∈ t2.linkBatches, b.2.Nodup) :=
  C3_store_subgraph_idempotent dbC3 remoteEmpty "a" (by decide)
    ⟨⟨1, "T", "S", "a", [("x", "1")], 0, 0⟩, by decide, rfl⟩

/-- Claim C10: `store_subgraph` selects its root by `lookup_key` alone —
it fails with the not-found error exactly when no node of any `node_type`
carries the key, and otherwise exports the component of whichever matching
row the store returns first. -/
theorem C10_root_by_lookup_key (db : DB) (r : Remote) (lk : String)
    (hwf : WF db) :
    ((∀ n ∈ db.nodes, n.lookup_key ≠ lk) →
      store_subgraph db r noFailR lk = Except.error SyncErr.notFound) ∧
    (∀ n0, db.nodes.find? (fun n => decide (n.lookup_key = lk)) = some n0 →
      ∃ r1 t1 ctx,
        store_subgraph db r noFailR lk = Except.ok (r1, t1, ctx) ∧
        (∀ d, (d ∈ t1.creates ∨ d ∈ t1.updates) ↔
          ∃ n ∈ db.nodes, Reaches db n0.id n.id ∧
            d = docId n.node_type n.lookup_key)) := by
  constructor
  · intro h
    have hfind : db.nodes.find? (fun n => decide (n.lookup_key = lk)) =
        none := by
      rw [List.find?_eq_none]
      intro x hx
      simp [h x hx]
    simp only [store_subgraph, hfind]
  · intro n0 hfind
    obtain ⟨v, ns, es, r1, t1, ctx, hcol, post, hrun1, hOK, htr1, -, -, -⟩ :=
      store_subgraph_run1 db r lk hwf n0 hfind
    refine ⟨r1, t1, ctx, hrun1, ?_⟩
    intro d
    rw [htr1 d]
    constructor
    · rintro ⟨rec, hrec, hd⟩
      obtain ⟨hdb, hidv⟩ := post.ns_sub rec hrec
      exact ⟨rec, hdb, post.sound rec.id hidv, hd⟩
    · rintro ⟨n, hn, hreach, hd⟩
      have hrootv : n0.id ∈ v := post.mono_tv n0.id (List.mem_cons_self _ _)
      have hnv : n.id ∈ v :=
        reaches_mem_closed db v post.closed n0.id n.id hrootv hreach
      obtain ⟨m, hm, hmid⟩ := post.ns_cover n.id hnv
      have hmn : m = n :=
        node_id_inj db hwf.2.1 m n (post.ns_sub m hm).1 hn hmid
      exact ⟨n, hmn ▸ hm, hd⟩

def dbC10 : DB :=
  ⟨[⟨1, "T1", "S", "k", [], 0, 0⟩, ⟨2, "T2", "S", "k", [], 0, 0⟩], [], 3, 0⟩

/-- The node-sync pass under an oracle that fails only fetch-by-identity
calls: the swallowed `get` exceptions turn upserts into creates, and the
pass always succeeds with the standard mapping. -/
theorem nodeSync_total (fail : RemoteCall → Bool)
    (honly : ∀ c, fail c = true → ∃ d, c = RemoteCall.get d)
    (ns : List Node) :
    ∀ st : Remote × List (Nat × String × String) × SyncTrace,
    ∃ (r' : Remote) (t' : SyncTrace),
      ns.foldlM (nodeSync fail) st =
        Except.ok (r', st.2.1 ++ stdMap ns, t') := by
  induction ns with
  | nil =>
    intro st
    refine ⟨st.1, st.2.2, ?_⟩
    simp [stdMap]
    rfl
  | cons rec rest ih =>
    intro st
    rw [List.foldlM_cons]
    have hupd : fail (RemoteCall.update
        (docId rec.node_type rec.lookup_key)) = false := by
      cases hf : fail (RemoteCall.update (docId rec.node_type rec.lookup_key))
      · rfl
      · obtain ⟨d, hd⟩ := honly _ hf
        simp at hd
    have hcre : fail (RemoteCall.create
        (docId rec.node_type rec.lookup_key)) = false := by
      cases hf : fail (RemoteCall.create (docId rec.node_type rec.lookup_key))
      · rfl
      · obtain ⟨d, hd⟩ := honly _ hf
        simp at hd
    cases hg : fail (RemoteCall.get (docId rec.node_type rec.lookup_key)) with
    | true =>
      have hstep : nodeSync fail st rec = Except.ok
          (remoteCreate st.1 rec.node_type rec.lookup_key rec.sub_type
            rec.data,
           st.2.1 ++ [(rec.id, (rec.node_type, rec.lookup_key))],
           { st.2.2 with creates := st.2.2.creates ++
              [docId rec.node_type rec.lookup_key] }) := by
        unfold nodeSync
        simp [hg, hcre]
      rw [hstep]
      obtain ⟨r', t', heq⟩ := ih _
      refine ⟨r', t', ?_⟩
      show rest.foldlM (nodeSync fail) _ = _
      rw [heq, List.append_assoc]
      rfl
    | false =>
      cases hget : remoteGet st.1 rec.node_type rec.lookup_key with
      | some ent =>
        obtain ⟨hc, hk, hm⟩ := remoteGet_key _ _ _ _ hget
        have hstep : nodeSync fail st rec = Except.ok
            (remoteUpdate st.1 rec.node_type ent.key rec.data,
             st.2.1 ++ [(rec.id, (rec.node_type, ent.key))],
             { st.2.2 with updates := st.2.2.updates ++
                [docId rec.node_type rec.lookup_key] }) := by
          unfold nodeSync
          simp [hg, hget, hupd]
        rw [hstep]
        obtain ⟨r', t', heq⟩ := ih _
        refine ⟨r', t', ?_⟩
        show rest.foldlM (nodeSync fail) _ = _
        rw [heq, hk, List.append_assoc]
        rfl
      | none =>
        have hstep : nodeSync fail st rec = Except.ok
            (remoteCreate st.1 rec.node_type rec.lookup_key rec.sub_type
              rec.data,
             st.2.1 ++ [(rec.id, (rec.node_type, rec.lookup_key))],
             { st.2.2 with creates := st.2.2.creates ++
                [docId rec.node_type rec.lookup_key] }) := by
          unfold nodeSync
          simp [hg, hget, hcre]
        rw [hstep]
        obtain ⟨r', t', heq⟩ := ih _
        refine ⟨r', t', ?_⟩
        show rest.foldlM (nodeSync fail) _ = _
        rw [heq, List.append_assoc]
        rfl

theorem linkSync_total (fail : RemoteCall → Bool)
    (honly : ∀ c, fail c = true → ∃ d, c = RemoteCall.get d)
    (gs : List (String × List (String × String))) :
    ∀ st : Remote × SyncTrace,
    ∃ st', gs.foldlM (linkSync fail) st = Except.ok st' := by
  induction gs with
  | nil => exact fun st => ⟨st, rfl⟩
  | cons g gs ih =>
    intro st
    have hl : fail (RemoteCall.link g.1) = false := by
      cases hf : fail (RemoteCall.link g.1)
      · rfl
      · obtain ⟨d, hd⟩ := honly _ hf
        simp at hd
    have hstep : linkSync fail st g = Except.ok
        (batchLink st.1 g.1 (dedupPairs g.2),
         { st.2 with linkBatches :=
            st.2.linkBatches ++ [(g.1, dedupPairs g.2)] }) := by
      unfold linkSync
      simp [hl]
    rw [List.foldlM_cons, hstep]
    obtain ⟨st', heq⟩ := ih _
    refine ⟨st', ?_⟩
    show gs.foldlM (linkSync fail) _ = _
    exact heq

/-- The BFS postcondition and the nodup of the collected natural keys, for
any successful collection over a well-formed store. -/
theorem collect_post (db : DB) (rootId : Nat) (hwf : WF db)
    (hroot : ∃ n ∈ db.nodes, n.id = rootId) (v : List Nat) (ns : List Node)
    (es : List Edge) (hcol : collectSubgraph db rootId = some (v, ns, es)) :
    BfsPost db rootId [rootId] [] [] [] (v, ns, es) ∧
    (ns.map (fun rec => (rec.node_type, rec.lookup_key))).Nodup := by
  obtain ⟨out, hcol', post, -⟩ := collect_master db rootId hwf hroot
  rw [hcol] at hcol'
  have hout : (v, ns, es) = out := Option.some.inj hcol'
  subst hout
  have hnsdb : ∀ m ∈ ns, m ∈ db.nodes := fun m hm => (post.ns_sub m hm).1
  have hnsnd : ns.Nodup := List.Nodup.of_map _ post.ns_idNodup
  refine ⟨post, List.Nodup.map_on ?_ hnsnd⟩
  intro x hx y hy hxy
  exact List.inj_on_of_nodup_map hwf.1 (hnsdb x hx) (hnsdb y hy) hxy

theorem keys_disjoint_of_nodup (pre : List Node) (rec : Node)
    (post : List Node)
    (hkn : ((pre ++ rec :: post).map
      (fun q => (q.node_type, q.lookup_key))).Nodup) :
    ∀ q ∈ pre,
      ¬(q.node_type = rec.node_type ∧ q.lookup_key = rec.lookup_key) := by
  intro q hq hc
  rw [List.map_append] at hkn
  have hdisj := (List.nodup_append.mp hkn).2.2
  refine hdisj (List.mem_map_of_mem _ hq) ?_
  have hfq : ((q.node_type, q.lookup_key) : String × String) =
      (rec.node_type, rec.lookup_key) := by
    rw [hc.1, hc.2]
  rw [hfq]
  exact List.mem_map_of_mem _ (List.mem_cons_self rec post)

theorem remoteGet_update_other (r : Remote) (c0 k0 : String) (attrs : Attrs)
    (c k : String) (hne : ¬(c0 = c ∧ k0 = k)) :
    remoteGet (remoteUpdate r c0 k0 attrs) c k = remoteGet r c k := by
  rw [remoteGet_update]
  cases hg : remoteGet r c k with
  | none => rfl
  | some ent =>
    obtain ⟨hc, hk, -⟩ := remoteGet_key r c k ent hg
    have hcond : ¬(ent.collection = c0 ∧ ent.key = k0) := by
      intro hcc
      exact hne ⟨by rw [← hcc.1, hc], by rw [← hcc.2, hk]⟩
    simp [hcond]

/-- The node-sync pass over a prefix whose update and create calls all
succeed (fetch failures arbitrary): it reaches the end, records the
standard mapping, and leaves the remote entity of every identity outside
the prefix untouched. -/
theorem nodeSync_pres_fold (fail : RemoteCall → Bool) (ns : List Node) :
    ∀ st : Remote × List (Nat × String × String) × SyncTrace,
    (∀ q ∈ ns,
      fail (RemoteCall.update (docId q.node_type q.lookup_key)) = false ∧
      fail (RemoteCall.create (docId q.node_type q.lookup_key)) = false) →
    ∃ (r' : Remote) (t' : SyncTrace),
      ns.foldlM (nodeSync fail) st =
        Except.ok (r', st.2.1 ++ stdMap ns, t') ∧
      (∀ c k, (∀ q ∈ ns, ¬(q.node_type = c ∧ q.lookup_key = k)) →
        remoteGet r' c k = remoteGet st.1 c k) := by
  induction ns with
  | nil =>
    intro st _
    refine ⟨st.1, st.2.2, ?_, fun c k _ => rfl⟩
    simp [stdMap]
    rfl
  | cons rec rest ih =>
    intro st hops
    obtain ⟨hupd, hcre⟩ := hops rec (List.mem_cons_self _ _)
    have hopsrest := fun q hq => hops q (List.mem_cons_of_mem _ hq)
    rw [List.foldlM_cons]
    cases hg : fail (RemoteCall.get (docId rec.node_type rec.lookup_key)) with
    | true =>
      have hstep : nodeSync fail st rec = Except.ok
          (remoteCreate st.1 rec.node_type rec.lookup_key rec.sub_type
            rec.data,
           st.2.1 ++ [(rec.id, (rec.node_type, rec.lookup_key))],
           { st.2.2 with creates := st.2.2.creates ++
              [docId rec.node_type rec.lookup_key] }) := by
        unfold nodeSync
        simp [hg, hcre]
      rw [hstep]
      obtain ⟨r', t', heq, hpres⟩ := ih _ hopsrest
      refine ⟨r', t', ?_, ?_⟩
      · show rest.foldlM (nodeSync fail) _ = _
        rw [heq, List.append_assoc]
        rfl
      · intro c k hnk
        rw [hpres c k (fun q hq => hnk q (List.mem_cons_of_mem _ hq))]
        show remoteGet (remoteCreate st.1 rec.node_type rec.lookup_key
          rec.sub_type rec.data) c k = _
        exact remoteGet_create_other st.1 _ _ _ _ c k
          (fun hcc => hnk rec (List.mem_cons_self _ _) hcc)
    | false =>
      cases hget : remoteGet st.1 rec.node_type rec.lookup_key with
      | some ent =>
        obtain ⟨hcoll, hk, -⟩ := remoteGet_key _ _ _ _ hget
        have hstep : nodeSync fail st rec = Except.ok
            (remoteUpdate st.1 rec.node_type ent.key rec.data,
             st.2.1 ++ [(rec.id, (rec.node_type, ent.key))],
             { st.2.2 with updates := st.2.2.updates ++
                [docId rec.node_type rec.lookup_key] }) := by
          unfold nodeSync
          simp [hg, hget, hupd]
        rw [hstep]
        obtain ⟨r', t', heq, hpres⟩ := ih _ hopsrest
        refine ⟨r', t', ?_, ?_⟩
        · show rest.foldlM (nodeSync fail) _ = _
          rw [heq, hk, List.append_assoc]
          rfl
        · intro c k hnk
          rw [hpres c k (fun q hq => hnk q (List.mem_cons_of_mem _ hq))]
          show remoteGet (remoteUpdate st.1 rec.node_type ent.key rec.data)
            c k = _
          rw [hk]
          exact remoteGet_update_other st.1 rec.node_type rec.lookup_key
            rec.data c k (fun hcc => hnk rec (List.mem_cons_self _ _) hcc)
      | none =>
        have hstep : nodeSync fail st rec = Except.ok
            (remoteCreate st.1 rec.node_type rec.lookup_key rec.sub_type
              rec.data,
             st.2.1 ++ [(rec.id, (rec.node_type, rec.lookup_key))],
             { st.2.2 with creates := st.2.2.creates ++
                [docId rec.node_type rec.lookup_key] }) := by
          unfold nodeSync
          simp [hg, hget, hcre]
        rw [hstep]
        obtain ⟨r', t', heq, hpres⟩ := ih _ hopsrest
        refine ⟨r', t', ?_, ?_⟩
        · show rest.foldlM (nodeSync fail) _ = _
          rw [heq, List.append_assoc]
          rfl
        · intro c k hnk
          rw [hpres c k (fun q hq => hnk q (List.mem_cons_of_mem _ hq))]
          show remoteGet (remoteCreate st.1 rec.node_type rec.lookup_key
            rec.sub_type rec.data) c k = _
          exact remoteGet_create_other st.1 _ _ _ _ c k
            (fun hcc => hnk rec (List.mem_cons_self _ _) hcc)

/-- A failing update on a node the pass actually reaches makes the whole
node pass abort with exactly that error. -/
theorem nodeSync_abort_update (fail : RemoteCall → Bool) (pre : List Node)
    (rec : Node) (post : List Node) (ent : RemoteEntity)
    (st : Remote × List (Nat × String × String) × SyncTrace)
    (hpre : ∀ q ∈ pre,
      fail (RemoteCall.update (docId q.node_type q.lookup_key)) = false ∧
      fail (RemoteCall.create (docId q.node_type q.lookup_key)) = false)
    (hknotin : ∀ q ∈ pre,
      ¬(q.node_type = rec.node_type ∧ q.lookup_key = rec.lookup_key))
    (hget : fail (RemoteCall.get (docId rec.node_type rec.lookup_key)) =
      false)
    (hfound : remoteGet st.1 rec.node_type rec.lookup_key = some ent)
    (hfail : fail (RemoteCall.update (docId rec.node_type rec.lookup_key)) =
      true) :
    (pre ++ rec :: post).foldlM (nodeSync fail) st =
      Except.error
        (RemoteCall.update (docId rec.node_type rec.lookup_key)) := by
  obtain ⟨r', t', heq, hpres⟩ := nodeSync_pres_fold fail pre st hpre
  rw [List.foldlM_append, heq]
  show (rec :: post).foldlM (nodeSync fail) (r', st.2.1 ++ stdMap pre, t') = _
  rw [List.foldlM_cons]
  have hget' : remoteGet r' rec.node_type rec.lookup_key = some ent := by
    rw [hpres rec.node_type rec.lookup_key hknotin]
    exact hfound
  have hstep : nodeSync fail (r', st.2.1 ++ stdMap pre, t') rec =
      Except.error
        (RemoteCall.update (docId rec.node_type rec.lookup_key)) := by
    unfold nodeSync
    simp [hget, hget', hfail]
  rw [hstep]
  rfl

/-- A failing create on a node the pass actually reaches (its entity absent
remotely, or its fetch failing and being swallowed) makes the whole node
pass abort with exactly that error. -/
theorem nodeSync_abort_create (fail : RemoteCall → Bool) (pre : List Node)
    (rec : Node) (post : List Node)
    (st : Remote × List (Nat × String × String) × SyncTrace)
    (hpre : ∀ q ∈ pre,
      fail (RemoteCall.update (docId q.node_type q.lookup_key)) = false ∧
      fail (RemoteCall.create (docId q.node_type q.lookup_key)) = false)
    (hknotin : ∀ q ∈ pre,
      ¬(q.node_type = rec.node_type ∧ q.lookup_key = rec.lookup_key))
    (habs : fail (RemoteCall.get (docId rec.node_type rec.lookup_key)) =
        true ∨
      remoteGet st.1 rec.node_type rec.lookup_key = none)
    (hfail : fail (RemoteCall.create (docId rec.node_type rec.lookup_key)) =
      true) :
    (pre ++ rec :: post).foldlM (nodeSync fail) st =
      Except.error
        (RemoteCall.create (docId rec.node_type rec.lookup_key)) := by
  obtain ⟨r', t', heq, hpres⟩ := nodeSync_pres_fold fail pre st hpre
  rw [List.foldlM_append, heq]
  show (rec :: post).foldlM (nodeSync fail) (r', st.2.1 ++ stdMap pre, t') = _
  rw [List.foldlM_cons]
  have hstep : nodeSync fail (r', st.2.1 ++ stdMap pre, t') rec =
      Except.error
        (RemoteCall.create (docId rec.node_type rec.lookup_key)) := by
    rcases habs with hga | hnone
    · unfold nodeSync
      simp [hga, hfail]
    · have hget' : remoteGet r' rec.node_type rec.lookup_key = none := by
        rw [hpres rec.node_type rec.lookup_key hknotin]
        exact hnone
      unfold nodeSync
      cases hg2 : fail (RemoteCall.get (docId rec.node_type rec.lookup_key))
      · simp [hg2, hget', hfail]
      · simp [hg2, hfail]
  rw [hstep]
  rfl

theorem linkSync_prefix_ok (fail : RemoteCall → Bool)
    (gpre : List (String × List (String × String))) :
    ∀ st : Remote × SyncTrace,
    (∀ g' ∈ gpre, fail (RemoteCall.link g'.1) = false) →
    ∃ st', gpre.foldlM (linkSync fail) st = Except.ok st' := by
  induction gpre with
  | nil => exact fun st _ => ⟨st, rfl⟩
  | cons g gs ih =>
    intro st hok
    have hl : fail (RemoteCall.link g.1) = false :=
      hok g (List.mem_cons_self _ _)
    have hstep : linkSync fail st g = Except.ok
        (batchLink st.1 g.1 (dedupPairs g.2),
         { st.2 with linkBatches :=
            st.2.linkBatches ++ [(g.1, dedupPairs g.2)] }) := by
      unfold linkSync
      simp [hl]
    rw [List.foldlM_cons, hstep]
    obtain ⟨st', heq⟩ := ih _ (fun g' hg' => hok g' (List.mem_cons_of_mem _ hg'))
    refine ⟨st', ?_⟩
    show gs.foldlM (linkSync fail) _ = _
    exact heq

/-- A failing batched link call on a group the pass actually reaches makes
the whole link pass abort with exactly that error. -/
theorem linkSync_abort (fail : RemoteCall → Bool)
    (gpre : List (String × List (String × String)))
    (g : String × List (String × String))
    (gpost : List (String × List (String × String)))
    (st : Remote × SyncTrace)
    (hgpre : ∀ g' ∈ gpre, fail (RemoteCall.link g'.1) = false)
    (hfail : fail (RemoteCall.link g.1) = true) :
    (gpre ++ g :: gpost).foldlM (linkSync fail) st =
      Except.error (RemoteCall.link g.1) := by
  obtain ⟨st', heq⟩ := linkSync_prefix_ok fail gpre st hgpre
  rw [List.foldlM_append, heq]
  show (g :: gpost).foldlM (linkSync fail) st' = _
  rw [List.foldlM_cons]
  have hstep : linkSync fail st' g =
      Except.error (RemoteCall.link g.1) := by
    unfold linkSync
    simp [hfail]
  rw [hstep]
  rfl

theorem store_subgraph_eq_nodeErr (db : DB) (r : Remote)
    (fail : RemoteCall → Bool) (lk : String) (n0 : Node) (v : List Nat)
    (ns : List Node) (es : List Edge) (c : RemoteCall)
    (hfind : db.nodes.find? (fun n => decide (n.lookup_key = lk)) = some n0)
    (hcol : collectSubgraph db n0.id = some (v, ns, es))
    (hnode : ns.foldlM (nodeSync fail) (r, [], ⟨[], [], []⟩) =
      Except.error c) :
    store_subgraph db r fail lk = Except.error (SyncErr.remote c) := by
  simp only [store_subgraph, hfind, hcol, hnode]

theorem store_subgraph_eq_linkErr (db : DB) (r : Remote)
    (fail : RemoteCall → Bool) (lk : String) (n0 : Node) (v : List Nat)
    (ns : List Node) (es : List Edge)
    (st1 : Remote × List (Nat × String × String) × SyncTrace)
    (c : RemoteCall)
    (hfind : db.nodes.find? (fun n => decide (n.lookup_key = lk)) = some n0)
    (hcol : collectSubgraph db n0.id = some (v, ns, es))
    (hnode : ns.foldlM (nodeSync fail) (r, [], ⟨[], [], []⟩) =
      Except.ok st1)
    (hlink : (groupLinks st1.2.1 es).foldlM (linkSync fail)
      (st1.1, st1.2.2) = Except.error c) :
    store_subgraph db r fail lk = Except.error (SyncErr.remote c) := by
  simp only [store_subgraph, hfind, hcol, hnode, hlink]

/-- Claim C7 (as amended): fetch-by-identity failures are swallowed by the
`try`/`except` around `get` and treated as entity-absent, so an oracle that
fails only fetches never aborts a run; but every failure of a create,
update or batched edge-link call that the run actually performs aborts the
run and surfaces to the caller as exactly that remote error. -/
theorem C7_remote_failure_policy (db : DB) (r : Remote) (lk : String)
    (hwf : WF db) :
    (∀ fail : RemoteCall → Bool,
      (∀ c, fail c = true → ∃ d, c = RemoteCall.get d) →
      (∃ n ∈ db.nodes, n.lookup_key = lk) →
      ∃ out, store_subgraph db r fail lk = Except.ok out) ∧
    (∀ (fail : RemoteCall → Bool) (n0 : Node) (v : List Nat)
        (ns : List Node) (es : List Edge) (pre : List Node) (rec : Node)
        (post : List Node) (ent : RemoteEntity),
      db.nodes.find? (fun n => decide (n.lookup_key = lk)) = some n0 →
      collectSubgraph db n0.id = some (v, ns, es) →
      ns = pre ++ rec :: post →
      (∀ q ∈ pre,
        fail (RemoteCall.update (docId q.node_type q.lookup_key)) = false ∧
        fail (RemoteCall.create (docId q.node_type q.lookup_key)) = false) →
      fail (RemoteCall.get (docId rec.node_type rec.lookup_key)) = false →
      remoteGet r rec.node_type rec.lookup_key = some ent →
      fail (RemoteCall.update (docId rec.node_type rec.lookup_key)) = true →
      store_subgraph db r fail lk = Except.error (SyncErr.remote
        (RemoteCall.update (docId rec.node_type rec.lookup_key)))) ∧
    (∀ (fail : RemoteCall → Bool) (n0 : Node) (v : List Nat)
        (ns : List Node) (es : List Edge) (pre : List Node) (rec : Node)
        (post : List Node),
      db.nodes.find? (fun n => decide (n.lookup_key = lk)) = some n0 →
      collectSubgraph db n0.id = some (v, ns, es) →
      ns = pre ++ rec :: post →
      (∀ q ∈ pre,
        fail (RemoteCall.update (docId q.node_type q.lookup_key)) = false ∧
        fail (RemoteCall.create (docId q.node_type q.lookup_key)) = false) →
      (fail (RemoteCall.get (docId rec.node_type rec.lookup_key)) = true ∨
        remoteGet r rec.node_type rec.lookup_key = none) →
      fail (RemoteCall.create (docId rec.node_type rec.lookup_key)) = true →
      store_subgraph db r fail lk = Except.error (SyncErr.remote
        (RemoteCall.create (docId rec.node_type rec.lookup_key)))) ∧
    (∀ (fail : RemoteCall → Bool) (n0 : Node) (v : List Nat)
        (ns : List Node) (es : List Edge)
        (gpre : List (String × List (String × String)))
        (g : String × List (String × String))
        (gpost : List (String × List (String × String))),
      db.nodes.find? (fun n => decide (n.lookup_key = lk)) = some n0 →
      collectSubgraph db n0.id = some (v, ns, es) →
      (∀ q ∈ ns,
        fail (RemoteCall.update (docId q.node_type q.lookup_key)) = false ∧
        fail (RemoteCall.create (docId q.node_type q.lookup_key)) = false) →
      groupLinks (stdMap ns) es = gpre ++ g :: gpost →
      (∀ g' ∈ gpre, fail (RemoteCall.link g'.1) = false) →
      fail (RemoteCall.link g.1) = true →
      store_subgraph db r fail lk =
        Except.error (SyncErr.remote (RemoteCall.link g.1))) := by
  refine ⟨?_, ?_, ?_, ?_⟩
  · intro fail honly hroot
    obtain ⟨n, hn, hnlk⟩ := hroot
    cases hfind : db.nodes.find? (fun m => decide (m.lookup_key = lk)) with
    | none =>
      exfalso
      have := List.find?_eq_none.mp hfind n hn
      simp [hnlk] at this
    | some n0 =>
    have hn0m : n0 ∈ db.nodes := List.mem_of_find?_eq_some hfind
    obtain ⟨out0, hcol, post, -⟩ :=
      collect_master db n0.id hwf ⟨n0, hn0m, rfl⟩
    obtain ⟨v, ns, es⟩ := out0
    have hrootv : n0.id ∈ v := post.mono_tv _ (List.mem_cons_self _ _)
    obtain ⟨mrec, hmrec, hmid⟩ := post.ns_cover n0.id hrootv
    obtain ⟨r', t', hnodeeq⟩ :=
      nodeSync_total fail honly ns (r, [], ⟨[], [], []⟩)
    obtain ⟨st2, hlinkeq⟩ :=
      linkSync_total fail honly (groupLinks ([] ++ stdMap ns) es) (r', t')
    have hctxex : ∃ ctx, lookupMapping (stdMap ns) n0.id = some ctx := by
      unfold lookupMapping
      cases hf : (stdMap ns).find? (fun x => decide (x.1 = n0.id)) with
      | some e => exact ⟨e.2, rfl⟩
      | none =>
        exfalso
        have hmm : (mrec.id, (mrec.node_type, mrec.lookup_key)) ∈
            stdMap ns := List.mem_map_of_mem _ hmrec
        have := List.find?_eq_none.mp hf _ hmm
        simp [hmid] at this
    obtain ⟨ctx, hctx⟩ := hctxex
    exact ⟨(st2.1, st2.2, ctx),
      store_subgraph_eq_ok db r fail lk n0 v ns es
        (r', [] ++ stdMap ns, t') st2 ctx hfind hcol hnodeeq hlinkeq hctx⟩
  · intro fail n0 v ns es pre rec post ent hfind hcol hsplit hpre hget
      hfound hfail
    subst hsplit
    have hn0m : n0 ∈ db.nodes := List.mem_of_find?_eq_some hfind
    have hkn :=
      (collect_post db n0.id hwf ⟨n0, hn0m, rfl⟩ v _ es hcol).2
    have hknotin := keys_disjoint_of_nodup pre rec post hkn
    exact store_subgraph_eq_nodeErr db r fail lk n0 v _ es _ hfind hcol
      (nodeSync_abort_update fail pre rec post ent (r, [], ⟨[], [], []⟩)
        hpre hknotin hget hfound hfail)
  · intro fail n0 v ns es pre rec post hfind hcol hsplit hpre habs hfail
    subst hsplit
    have hn0m : n0 ∈ db.nodes := List.mem_of_find?_eq_some hfind
    have hkn :=
      (collect_post db n0.id hwf ⟨n0, hn0m, rfl⟩ v _ es hcol).2
    have hknotin := keys_disjoint_of_nodup pre rec post hkn
    exact store_subgraph_eq_nodeErr db r fail lk n0 v _ es _ hfind hcol
      (nodeSync_abort_create fail pre rec post (r, [], ⟨[], [], []⟩)
        hpre hknotin habs hfail)
  · intro fail n0 v ns es gpre g gpost hfind hcol hops hgroups hgpre hfail
    obtain ⟨r', t', hnodeeq, -⟩ :=
      nodeSync_pres_fold fail ns (r, [], ⟨[], [], []⟩) hops
    have hlinkerr : (groupLinks ([] ++ stdMap ns) es).foldlM
        (linkSync fail) (r', t') =
        Except.error (RemoteCall.link g.1) := by
      have h0 : groupLinks ([] ++ stdMap ns) es = gpre ++ g :: gpost :=
        hgroups
      rw [h0]
      exact linkSync_abort fail gpre g gpost (r', t') hgpre hfail
    exact store_subgraph_eq_linkErr db r fail lk n0 v ns es
      (r', [] ++ stdMap ns, t') _ hfind hcol hnodeeq hlinkerr

def dbC7 : DB := ⟨[⟨1, "T", "S", "a", [("x", "1")], 0, 0⟩], [], 2, 0⟩

def failGetW : RemoteCall → Bool := fun c =>
  match c with
  | RemoteCall.get _ => true
  | _ => false

/-- Claim C7 is false as stated: here the fetch-by-identity for the only
collected node fails, yet the run returns success (the failure is silently
swallowed and the node is created instead) — no error is surfaced to the
caller. -/
theorem C7_counterexample :
    failGetW (RemoteCall.get (docId "T" "a")) = true ∧
    store_subgraph dbC7 remoteEmpty failGetW "a" =
      Except.ok (⟨[⟨"T", "a", "S", [("x", "1")]⟩], []⟩,
        ⟨[docId "T" "a"], [], []⟩, ("T", "a")) :=
  ⟨rfl, rfl⟩

def rC7u : Remote := ⟨[⟨"T", "a", "S", []⟩], []⟩

def failUpdW : RemoteCall → Bool := fun c =>
  match c with
  | RemoteCall.update _ => true
  | _ => false

def failCreateW : RemoteCall → Bool := fun c =>
  match c with
  | RemoteCall.create _ => true
  | _ => false

def failLinkW : RemoteCall → Bool := fun c =>
  match c with
  | RemoteCall.link _ => true
  | _ => false

theorem C7_remote_failure_policy_witness :
    store_subgraph dbC7 rC7u failUpdW "a" =
      Except.error (SyncErr.remote (RemoteCall.update (docId "T" "a"))) ∧
    store_subgraph dbC7 remoteEmpty failCreateW "a" =
      Except.error (SyncErr.remote (RemoteCall.create (docId "T" "a"))) ∧
    store_subgraph dbC3 remoteEmpty failLinkW "a" =
      Except.error (SyncErr.remote (RemoteCall.link "rel")) ∧
    (∃ out, store_subgraph dbC7 remoteEmpty failGetW "a" =
      Except.ok out) := by
  refine ⟨?_, ?_, ?_, ?_⟩
  · exact (C7_remote_failure_policy dbC7 rC7u "a" (by decide)).2.1 failUpdW
      ⟨1, "T", "S", "a", [("x", "1")], 0, 0⟩ [1]
      [⟨1, "T", "S", "a", [("x", "1")], 0, 0⟩] [] []
      ⟨1, "T", "S", "a", [("x", "1")], 0, 0⟩ [] ⟨"T", "a", "S", []⟩
      rfl rfl rfl (by simp) rfl rfl rfl
  · exact (C7_remote_failure_policy dbC7 remoteEmpty "a" (by decide)).2.2.1
      failCreateW ⟨1, "T", "S", "a", [("x", "1")], 0, 0⟩ [1]
      [⟨1, "T", "S", "a", [("x", "1")], 0, 0⟩] [] []
      ⟨1, "T", "S", "a", [("x", "1")], 0, 0⟩ []
      rfl rfl rfl (by simp) (Or.inr rfl) rfl
  · exact (C7_remote_failure_policy dbC3 remoteEmpty "a" (by decide)).2.2.2
      failLinkW ⟨1, "T", "S", "a", [("x", "1")], 0, 0⟩ [2, 1]
      [⟨1, "T", "S", "a", [("x", "1")], 0, 0⟩, ⟨2, "T", "S", "b", [], 0, 0⟩]
      [⟨1, 2, "rel", 0⟩, ⟨1, 2, "rel", 0⟩] []
      ("rel", [(docId "T" "a", docId "T" "b"),
        (docId "T" "a", docId "T" "b")])
      []
      rfl rfl (by decide) rfl (by simp) rfl
  · exact (C7_remote_failure_policy dbC7 remoteEmpty "a" (by decide)).1
      failGetW
      (by
        intro c hc
        cases c with
        | get d => exact ⟨d, rfl⟩
        | create d => simp [failGetW] at hc
        | update d => simp [failGetW] at hc
        | link d => simp [failGetW] at hc)
      ⟨⟨1, "T", "S", "a", [("x", "1")], 0, 0⟩, by decide, rfl⟩

theorem C10_root_by_lookup_key_witness :
    ((∀ n ∈ dbC10.nodes, n.lookup_key ≠ "k") →
      store_subgraph dbC10 remoteEmpty noFailR "k" =
        Except.error SyncErr.notFound) ∧
    (∀ n0, dbC10.nodes.find? (fun n => decide (n.lookup_key = "k")) =
        some n0 →
      ∃ r1 t1 ctx,
        store_subgraph dbC10 remoteEmpty noFailR "k" =
          Except.ok (r1, t1, ctx) ∧
        (∀ d, (d ∈ t1.creates ∨ d ∈ t1.updates) ↔
          ∃ n ∈ dbC10.nodes, Reaches dbC10 n0.id n.id ∧
            d = docId n.node_type n.lookup_key)) :=
  C10_root_by_lookup_key dbC10 remoteEmpty "k" (by decide)

end Harvest
